import Mathlib

/-!
# acropwasm.c — a shallow embedding

Bytes are natural numbers below 256 and buffers are lists of bytes.  A pointer
into the input buffer is a natural-number offset from `in`; addresses are 32
bits wide on the WebAssembly target, so the cursor that `parse_chunk` moves is
kept modulo `2 ^ 32`.  Unsigned 32-bit arithmetic is written with an explicit
`% 2 ^ 32`.  The target is
little-endian (WebAssembly), so a `uint32_t` load assembles four bytes least
significant first.  A read or write outside the buffer it addresses is
`Outcome.undefined`; a loop that has used up its fuel is `Outcome.fuelOut`.
-/

namespace Acropalypse

/-! ## Outcomes -/

/-- Result of running a piece of the program. -/
inductive Outcome (α : Type) where
  | ok : α → Outcome α
  | undefined : Outcome α
  | fuelOut : Outcome α
deriving DecidableEq, Repr

/-- Sequencing of outcomes. -/
def Outcome.bind {α β : Type} (x : Outcome α) (f : α → Outcome β) : Outcome β :=
  match x with
  | .ok a => f a
  | .undefined => .undefined
  | .fuelOut => .fuelOut

/-! ## Machine words and memory -/

/-- Two to the thirty-second: the modulus of `uint32_t`. -/
def U32 : Nat := 4294967296

/-- The four bytes of a 32-bit word as stored in memory (least significant first). -/
def bytes_of_u32 (x : Nat) : List Nat :=
  [x % 256, x / 256 % 256, x / 65536 % 256, x / 16777216 % 256]

/-- The 32-bit word held by four bytes in memory (least significant first). -/
def u32_of_bytes (b0 b1 b2 b3 : Nat) : Nat :=
  b0 + 256 * b1 + 65536 * b2 + 16777216 * b3

/-- The four bytes of a 32-bit word, most significant first (network order). -/
def be32 (x : Nat) : List Nat :=
  [x / 16777216 % 256, x / 65536 % 256, x / 256 % 256, x % 256]

/-- `SWAP32(x)`, that is `__builtin_bswap32`. -/
def SWAP32 (x : Nat) : Nat :=
  u32_of_bytes (x / 16777216 % 256) (x / 65536 % 256) (x / 256 % 256) (x % 256)

/-- `*(uint32_t *)(mem + p)`: a 32-bit load, undefined outside the buffer. -/
def load32 (mem : List Nat) (p : Nat) : Outcome Nat :=
  match mem.drop p with
  | b0 :: b1 :: b2 :: b3 :: _ => .ok (u32_of_bytes b0 b1 b2 b3)
  | _ => .undefined

/-- `memcpy(mem + p, bytes, bytes.length)`: undefined when the destination range
leaves the buffer. -/
def store (mem : List Nat) (p : Nat) (bytes : List Nat) : Outcome (List Nat) :=
  if p + bytes.length ≤ mem.length then
    .ok (mem.take p ++ bytes ++ mem.drop (p + bytes.length))
  else .undefined

/-- The `n` bytes at `mem + p`, as read by `memcpy` or `crc32`: undefined when
the source range leaves the buffer. -/
def slice (mem : List Nat) (p n : Nat) : Outcome (List Nat) :=
  if p + n ≤ mem.length then .ok ((mem.drop p).take n) else .undefined

/-! ## Constants -/

/-- `CHUNK_TYPE_IDAT`. -/
def CHUNK_TYPE_IDAT : Nat := 0x54414449
/-- `CHUNK_TYPE_IEND`. -/
def CHUNK_TYPE_IEND : Nat := 0x444e4549
/-- `CHUNK_TYPE_IHDR`. -/
def CHUNK_TYPE_IHDR : Nat := 0x52444849
/-- `ZLIB_DICT_LENGTH`. -/
def ZLIB_DICT_LENGTH : Nat := 0x8000
/-- `PNG_HEADER_SIZE`. -/
def PNG_HEADER_SIZE : Nat := 0xd
/-- `png_magic`. -/
def png_magic : List Nat := [0x89, 0x50, 0x4E, 0x47, 0x0D, 0x0A, 0x1A, 0x0A]
/-- zlib's `Z_STREAM_END`. -/
def Z_STREAM_END : Int := 1

/-! ## CRC-32 (zlib) -/

/-- One bit of the CRC-32 shift register (reflected polynomial `0xEDB88320`). -/
def crc_bit (c : Nat) : Nat :=
  if c % 2 = 1 then (c / 2) ^^^ 0xEDB88320 else c / 2

/-- Feeding one byte into the CRC-32 shift register. -/
def crc_byte (c b : Nat) : Nat :=
  crc_bit (crc_bit (crc_bit (crc_bit (crc_bit (crc_bit (crc_bit (crc_bit (c ^^^ b))))))))

/-- Modelled from the spec: zlib's `crc32(crc, buf, len)`, which is not under
src/; the "standard cyclic redundancy check" of the file format, as a running
checksum: the register is the complement of `crc`, every byte of `buf` is fed
in, and the result is complemented again. -/
def crc32 (crc : Nat) (buf : List Nat) : Nat :=
  (buf.foldl crc_byte (crc ^^^ 0xFFFFFFFF)) ^^^ 0xFFFFFFFF

/-! ## parse_chunk, seek_idat_chunk, write_idat_chunk -/

/-- What `parse_chunk` hands back: the advanced cursor and its three out
parameters. -/
structure Chunk where
  next : Nat
  chunk_length : Nat
  chunk_type : Nat
  chunk_data : Nat
deriving DecidableEq, Repr

/-- `parse_chunk(&buffer, &chunk_length, &chunk_type, &chunk_data)`.  The length
is the byte-swapped first word, the type is the raw second word, the data
starts 8 bytes in, and the cursor moves on by `12 + chunk_length`: the sum is
a 32-bit `size_t` and the pointer addition wraps at `2 ^ 32` as well, so a
large length can leave the cursor in place or move it backwards.  The two
loads succeed only inside the input, so `buffer + 4` and `buffer + 8` do not
wrap for an input shorter than `2 ^ 32` bytes. -/
def parse_chunk (inp : List Nat) (buffer : Nat) : Outcome Chunk :=
  (load32 inp buffer).bind fun w0 =>
  (load32 inp (buffer + 4)).bind fun w1 =>
  let chunk_length := SWAP32 w0
  .ok { next := (buffer + (4 * 3 + chunk_length) % U32) % U32,
        chunk_length := chunk_length,
        chunk_type := w1,
        chunk_data := buffer + 4 * 2 }

/-- `seek_idat_chunk(&buffer, buffer_end)`: `some` of the rewound cursor for
return value 1, `none` for return value 0.  The loop runs while
`buffer < buffer_end - 4`; offsets are integers because the rewound cursor
may fall before the place the scan started from.  The test compares
addresses: for a cursor inside the input block it is the comparison of the
offsets, and for a cursor beyond the block's end it depends on where the
block lies in the 32-bit address space, which is `undefined` here. -/
def seek_idat_chunk (inp : List Nat) : Nat → Nat → Nat → Outcome (Option Int)
  | 0, _, _ => .fuelOut
  | fuel + 1, buffer, buffer_end =>
    if buffer_end < buffer then .undefined
    else if (buffer : Int) < (buffer_end : Int) - 4 then
      (load32 inp buffer).bind fun w =>
        if w = CHUNK_TYPE_IDAT then .ok (some ((buffer : Int) - 4))
        else seek_idat_chunk inp fuel (buffer + 1) buffer_end
    else .ok none

/-- `write_idat_chunk(out + off, chunk_length, chunk_type, chunk_data)`, where
`data` is the memory `chunk_data` points to.  The checksum runs over the four
bytes of `chunk_type` as they lie in memory and then, when the length is
positive, over the payload. -/
def write_idat_chunk (out : List Nat) (off : Nat) (chunk_length chunk_type : Nat)
    (data : List Nat) : Outcome (List Nat) :=
  let checksum := crc32 0 (bytes_of_u32 chunk_type)
  (if chunk_length > 0 then
     (slice data 0 chunk_length).bind fun payload => .ok (crc32 checksum payload)
   else .ok checksum).bind fun checksum =>
  let chunk_length_be := SWAP32 chunk_length
  let checksum := SWAP32 checksum
  (store out off (bytes_of_u32 chunk_length_be)).bind fun out =>
  (store out (off + 4) (bytes_of_u32 chunk_type)).bind fun out =>
  (if chunk_length > 0 then
     (slice data 0 chunk_length).bind fun payload =>
       (store out (off + 8) payload).bind fun out => .ok (out, off + 8 + chunk_length)
   else .ok (out, off + 8)).bind fun (out, p) =>
  store out p (bytes_of_u32 checksum)

/-! ## zlib's decompressor and compressor -/

/-- The fields of a `z_stream` the program depends on, with the decompressor's
internal state kept abstract. -/
structure ZStream (σ : Type) where
  state : σ
  avail_out : Nat
  total_out : Nat

/-- Modelled from the spec: zlib's `inflateInit2`, `inflate` and `compress`,
which are not under src/.  `init` is the state after `inflateInit2(&z, -15)`.
`inflate s next_in avail_in avail_out` is `inflate(&z, Z_FINISH)` on state `s`:
it gives the new state, the status and the bytes stored at `next_out`.
`next_in` holds the bytes of the input buffer from `next_in` to the buffer's
end and `avail_in` is the declared count.  `compress destLen source` gives the
bytes stored in the destination; their number is the new `*destLen`. -/
structure Zlib (σ : Type) where
  init : σ
  inflate : σ → List Nat → Nat → Nat → σ × Int × List Nat
  compress : Nat → List Nat → List Nat

/-- A call `inflate(&z, Z_FINISH)`: the stream's counters move by the number of
bytes produced. -/
def inflate_call {σ : Type} (Z : Zlib σ) (z : ZStream σ) (next_in : List Nat)
    (avail_in : Nat) : ZStream σ × Int × List Nat :=
  let r := Z.inflate z.state next_in avail_in z.avail_out
  ({ state := r.1,
     avail_out := z.avail_out - r.2.2.length,
     total_out := (z.total_out + r.2.2.length) % U32 }, r.2.1, r.2.2)

/-- What the program reads without having written it: the local `int status`,
the field `zz.total_out` before any `inflateCopy`, and the bytes of the block
returned by `malloc(image_length)` for `decompressed`. -/
structure Indeterminate where
  status : Int
  total_out : Nat
  heap : Nat → Nat

/-! ## The stages of acropalypse_recover -/

/-- Line 105: `((width * 3) + 1) * height` in `uint32_t`. -/
def image_length (width height : Nat) : Nat :=
  (((width * 3) % U32 + 1) % U32 * height) % U32

/-- Line 302: the loop increment `(width * 3) + 1` in `uint32_t`. -/
def stride (width : Nat) : Nat :=
  ((width * 3) % U32 + 1) % U32

/-- Lines 114-123: walk chunks until one has type IEND; yields the cursor after
that chunk.  A search still going after `in_length + 1` records has come back
to a cursor it held before and never ends, so that much fuel tells a search
that ends from one that does not. -/
def find_iend (inp : List Nat) : Nat → Nat → Outcome Nat
  | 0, _ => .fuelOut
  | fuel + 1, trailer =>
    (parse_chunk inp trailer).bind fun c =>
      if c.chunk_type = CHUNK_TYPE_IEND then .ok c.next
      else find_iend inp fuel c.next

/-- Lines 145-170: walk the remaining chunks, appending IDAT payloads to `idat`
(a block of `in_length` bytes of which `idat.length` are in use).  `some` is
the final `idat`; `none` is the `return -3`. -/
def aggregate (inp : List Nat) : Nat → Nat → List Nat → Outcome (Option (List Nat))
  | 0, _, _ => .fuelOut
  | fuel + 1, trailer, idat =>
    (parse_chunk inp trailer).bind fun c =>
      if c.chunk_type = CHUNK_TYPE_IDAT then
        (slice inp c.chunk_data c.chunk_length).bind fun payload =>
          if idat.length + c.chunk_length ≤ inp.length then
            aggregate inp fuel c.next (idat ++ payload)
          else .undefined
      else if c.chunk_type = CHUNK_TYPE_IEND then .ok (some idat)
      else .ok none

/-- Lines 173-180: the bit array, `(idat_length * 8) + 7` entries, entry `i + j`
being bit `j` of byte `i / 8`. -/
def bitstream (idat : List Nat) : List Nat :=
  let nbits := idat.length * 8 % U32
  (List.range ((nbits + 7) % U32)).map fun p =>
    if p < nbits then (idat.getD (p / 8) 0 >>> (p % 8)) &&& 1 else 0

/-- Lines 188-199: `shifted[i]`, `idat_length` bytes, byte `j / 8` being the OR
of `bitstream[j + k] << k` for `j = i, i + 8, ...` below `idat_length * 8`. -/
def shifted (idat : List Nat) (i : Nat) : List Nat :=
  let nbits := idat.length * 8 % U32
  let bits := bitstream idat
  (List.range idat.length).map fun m =>
    if 8 * m + i < nbits then
      (List.range 8).foldl (fun acc k => acc ||| (bits.getD (8 * m + i + k) 0 <<< k)) 0
    else 0

/-- Lines 205-215: five header bytes, then `ZLIB_DICT_LENGTH` bytes `'X'`. -/
def lookback : List Nat :=
  [0, 0, 0x80, 0xff, 0x7f] ++ List.replicate ZLIB_DICT_LENGTH 0x58

/-- The variables the trial loop updates. -/
structure TrialState where
  status : Int
  total_out : Nat
  decompressed : List Nat
deriving DecidableEq, Repr

/-- Lines 241-258, with `i = idat_length - remaining`: skip the position unless
the low three bits of `shifted[i % 8][i / 8]` are `0b100`; otherwise copy the
primed stream, point it at `shifted[i % 8] + i / 8` with `avail_in =
idat_length` and `next_out = decompressed`, inflate, and stop on
`Z_STREAM_END`. -/
def trial_loop {σ : Type} (Z : Zlib σ) (z : ZStream σ) (idat : List Nat) :
    Nat → TrialState → Outcome TrialState
  | 0, st => .ok st
  | remaining + 1, st =>
    let i := idat.length - (remaining + 1)
    if (shifted idat (i % 8)).getD (i / 8) 0 % 8 ≠ 4 then
      trial_loop Z z idat remaining st
    else
      let r := inflate_call Z z ((shifted idat (i % 8)).drop (i / 8)) idat.length
      (store st.decompressed 0 r.2.2).bind fun d =>
        let st1 : TrialState := { status := r.2.1, total_out := r.1.total_out, decompressed := d }
        if r.2.1 = Z_STREAM_END then .ok st1
        else trial_loop Z z idat remaining st1

/-- Lines 302-306: clear every `'X'` found at `i = 0, stride, 2 * stride, ...`
below `image_length`, the index wrapping as a `uint32_t`. -/
def fix_filter_bytes (stride len : Nat) : Nat → Nat → List Nat → Outcome (List Nat)
  | 0, _, _ => .fuelOut
  | fuel + 1, i, image_data =>
    if i < len then
      (slice image_data i 1).bind fun b =>
        (if b = [0x58] then store image_data i [0] else .ok image_data).bind fun d =>
          fix_filter_bytes stride len fuel ((i + stride) % U32) d
    else .ok image_data

/-- Lines 294-306: the zeroed pixel buffer, the decompressed bytes copied to
`image_length - total_out + ZLIB_DICT_LENGTH`, the filter bytes fixed. -/
def repair (width height : Nat) (decompressed : List Nat) (total_out : Nat) :
    Outcome (List Nat) :=
  let len := image_length width height
  let image_data := List.replicate len 0
  let n := (total_out + (U32 - ZLIB_DICT_LENGTH)) % U32
  let dst := (len + (U32 - total_out % U32) + ZLIB_DICT_LENGTH) % U32
  (slice decompressed 0 n).bind fun bytes =>
  (store image_data dst bytes).bind fun image_data =>
  fix_filter_bytes (stride width) len (height + 1) 0 image_data

/-- Lines 276-285: the 13 bytes of `header` as they lie in memory. -/
def header_bytes (width height : Nat) : List Nat :=
  bytes_of_u32 (SWAP32 width) ++ bytes_of_u32 (SWAP32 height) ++ [8, 2, 0, 0, 0]

/-- Conversion of a 32-bit unsigned value to the `int` that is returned. -/
def to_int (x : Nat) : Int :=
  if x % U32 < 2147483648 then (x % U32 : Nat) else ((x % U32 : Nat) : Int) - 4294967296

/-- Lines 275-334: everything after the status check. -/
def encode {σ : Type} (Z : Zlib σ) (out : List Nat) (width height : Nat)
    (st : TrialState) : Outcome (Int × List Nat) :=
  (store out 0 png_magic).bind fun out =>
  (write_idat_chunk out png_magic.length PNG_HEADER_SIZE CHUNK_TYPE_IHDR
      (header_bytes width height)).bind fun out =>
  (repair width height st.decompressed st.total_out).bind fun image_data =>
  let compressed_data := Z.compress (image_length width height) image_data
  let compressed_length := compressed_data.length
  (write_idat_chunk out (png_magic.length + PNG_HEADER_SIZE + 4 * 3)
      compressed_length CHUNK_TYPE_IDAT compressed_data).bind fun out =>
  (write_idat_chunk out (png_magic.length + PNG_HEADER_SIZE + 4 * 6 + compressed_length)
      0 CHUNK_TYPE_IEND []).bind fun out =>
  .ok (to_int (png_magic.length + PNG_HEADER_SIZE + 4 * 9 + compressed_length), out)

/-- Lines 172-258: the bit views, the priming of the decompressor on `lookback`
with `avail_out = image_length`, and the trials; yields `status`,
`zz.total_out` and the contents of `decompressed` as the loop leaves them. -/
def decompress {σ : Type} (Z : Zlib σ) (g : Indeterminate) (width height : Nat)
    (idat : List Nat) : Outcome TrialState :=
  let len := image_length width height
  let decompressed := (List.range len).map g.heap
  let z0 : ZStream σ := { state := Z.init, avail_out := len, total_out := 0 }
  let r := inflate_call Z z0 lookback lookback.length
  (store decompressed 0 r.2.2).bind fun decompressed =>
  trial_loop Z r.1 idat idat.length
    { status := g.status, total_out := g.total_out, decompressed := decompressed }

/-- Lines 172-334: `decompress`, the status check, then `encode`. -/
def resume {σ : Type} (Z : Zlib σ) (g : Indeterminate) (out : List Nat)
    (width height : Nat) (idat : List Nat) : Outcome (Int × List Nat) :=
  (decompress Z g width height idat).bind fun st =>
  if st.status ≠ Z_STREAM_END then .ok (-4, out)
  else encode Z out width height st

/-- Line 133: `trailer - end - (sizeof(uint32_t) * 4)` as a `uint32_t`. -/
def distance (e : Nat) (trailer : Int) : Nat :=
  ((trailer - (e : Int) - 4 * 4) % (U32 : Int)).toNat

/-- Lines 136-142: the `distance` bytes at `end + 12`, copied to the start of
`idat`. -/
def leading_fragment (inp : List Nat) (e : Nat) (trailer : Int) : Outcome (List Nat) :=
  slice inp (e + 4 * 3) (distance e trailer)

/-- `acropalypse_recover(in, in_length, out, width, height)`, with `inp` the
`in_length` bytes at `in` and `out` the caller's output block; yields the
returned `int` and the final contents of the output block. -/
def acropalypse_recover {σ : Type} (Z : Zlib σ) (g : Indeterminate) (inp out : List Nat)
    (width height : Nat) : Outcome (Int × List Nat) :=
  (slice inp 0 png_magic.length).bind fun magic =>
  if magic ≠ png_magic then .ok (-1, out)
  else
    (find_iend inp (inp.length + 1) 8).bind fun «end» =>
    (seek_idat_chunk inp (inp.length + 1) «end» inp.length).bind fun found =>
    match found with
    | none => .ok (-2, out)
    | some trailer =>
      (leading_fragment inp «end» trailer).bind fun idat =>
      if trailer < 0 then .undefined
      else
        (aggregate inp (inp.length + 1) trailer.toNat idat).bind fun agg =>
        match agg with
        | none => .ok (-3, out)
        | some idat => resume Z g out width height idat

/-! ## Specification-side definitions -/

/-- The record `write_idat_chunk` lays down: big-endian length, type tag,
payload, big-endian CRC-32 of tag and payload. -/
def record (chunk_type : Nat) (payload : List Nat) : List Nat :=
  be32 payload.length ++ bytes_of_u32 chunk_type ++ payload
    ++ be32 (crc32 0 (bytes_of_u32 chunk_type ++ payload))

/-- Walking records from cursor `c`, a record whose type is neither IDAT nor
IEND is met before any IEND record: zero or more IDAT records, each with its
payload inside the input, and then the foreign record. -/
inductive ForeignAhead (inp : List Nat) : Nat → Prop where
  | here (c : Nat) (ch : Chunk) :
      parse_chunk inp c = .ok ch → ch.chunk_type ≠ CHUNK_TYPE_IDAT →
      ch.chunk_type ≠ CHUNK_TYPE_IEND → ForeignAhead inp c
  | step (c : Nat) (ch : Chunk) :
      parse_chunk inp c = .ok ch → ch.chunk_type = CHUNK_TYPE_IDAT →
      ch.chunk_data + ch.chunk_length ≤ inp.length →
      ForeignAhead inp ch.next → ForeignAhead inp c

/-- Records given as (type tag word, payload), written back-to-back from
offset `off` by `write_idat_chunk`. -/
def write_records (out : List Nat) : Nat → List (Nat × List Nat) → Outcome (List Nat)
  | _, [] => .ok out
  | off, (ty, payload) :: rs =>
    (write_idat_chunk out off payload.length ty payload).bind fun out =>
      write_records out (off + 12 + payload.length) rs

/-- Number of bytes a sequence of records occupies. -/
def serialised_length : List (Nat × List Nat) → Nat
  | [] => 0
  | (_, payload) :: rs => 12 + payload.length + serialised_length rs

/-- A sequence of records serialised by `write_idat_chunk` into a zeroed block
of exactly the size they occupy. -/
def serialise (rs : List (Nat × List Nat)) : Outcome (List Nat) :=
  write_records (List.replicate (serialised_length rs) 0) 0 rs

/-- The bytes of a sequence of records, one record after the other. -/
def records_bytes : List (Nat × List Nat) → List Nat
  | [] => []
  | (ty, payload) :: rs => record ty payload ++ records_bytes rs

/-- `parse_chunk` applied `n` times from cursor `c`: the chunks decoded and the
final cursor. -/
def parse_chunks (inp : List Nat) : Nat → Nat → Outcome (List Chunk × Nat)
  | 0, c => .ok ([], c)
  | n + 1, c =>
    (parse_chunk inp c).bind fun ch =>
      (parse_chunks inp n ch.next).bind fun r => .ok (ch :: r.1, r.2)

/-- What decoding the records laid from offset `off` should give: for each its
length, its type tag, the position of its payload, and the cursor `12 +
length` further on. -/
def constructed : Nat → List (Nat × List Nat) → List Chunk
  | _, [] => []
  | off, (ty, payload) :: rs =>
    { next := off + 12 + payload.length, chunk_length := payload.length,
      chunk_type := ty, chunk_data := off + 8 }
      :: constructed (off + 12 + payload.length) rs

/-- Walking records from cursor `c` meets the IDAT records `chs`, in file order,
and then an IEND record. -/
inductive Walked (inp : List Nat) : Nat → List Chunk → Prop where
  | stop (c : Nat) (ch : Chunk) :
      parse_chunk inp c = .ok ch → ch.chunk_type ≠ CHUNK_TYPE_IDAT →
      ch.chunk_type = CHUNK_TYPE_IEND → Walked inp c []
  | step (c : Nat) (ch : Chunk) (chs : List Chunk) :
      parse_chunk inp c = .ok ch → ch.chunk_type = CHUNK_TYPE_IDAT →
      Walked inp ch.next chs → Walked inp c (ch :: chs)

/-- The payload bytes a decoded record addresses. -/
def payload (inp : List Nat) (ch : Chunk) : List Nat :=
  (inp.drop ch.chunk_data).take ch.chunk_length

/-- Bit `p` of a buffer read as a bit sequence, least significant bit of each
byte first. -/
def stream_bit (B : List Nat) (p : Nat) : Nat :=
  B.getD (p / 8) 0 / 2 ^ (p % 8) % 2

/-- Line 244: position `i` passes the filter, the low three bits of
`shifted[i % 8][i / 8]` being `0b100`. -/
def candidate (idat : List Nat) (i : Nat) : Prop :=
  (shifted idat (i % 8)).getD (i / 8) 0 % 8 = 4

instance candidate_decidable (idat : List Nat) : DecidablePred (candidate idat) :=
  fun i => inferInstanceAs (Decidable ((shifted idat (i % 8)).getD (i / 8) 0 % 8 = 4))

/-- Lines 248-256: the trial at position `i`, on a copy of the primed stream `z`
pointed at `shifted[i % 8] + i / 8` with `avail_in = idat_length`. -/
def trial {σ : Type} (Z : Zlib σ) (z : ZStream σ) (idat : List Nat) (i : Nat) :
    ZStream σ × Int × List Nat :=
  inflate_call Z z ((shifted idat (i % 8)).drop (i / 8)) idat.length

/-- Lines 221-236: the stream `z` after `inflateInit2` and the priming call on
`lookback` with `avail_out = image_length`; every trial starts from a copy
of it. -/
def primed {σ : Type} (Z : Zlib σ) (width height : Nat) : ZStream σ :=
  (inflate_call Z { state := Z.init, avail_out := image_length width height, total_out := 0 }
    lookback lookback.length).1

/-- A small stand-in for zlib, used to run the program on concrete inputs.
Priming (state `false`) produces up to `ZLIB_DICT_LENGTH` bytes `'X'` and
reports `Z_BUF_ERROR`.  A trial (state `true`) on a window starting with the
byte `0x0c` produces the four bytes after it and reports `Z_STREAM_END` when
`avail_out` has room for them, and otherwise fills the room there is and
reports `Z_BUF_ERROR`; on any other window it produces nothing and reports
`Z_DATA_ERROR`.  The compressor keeps a two-byte header and the last
four bytes of its input. -/
def toyZlib : Zlib Bool where
  init := false
  inflate := fun primed next_in _ avail_out =>
    if primed then
      match next_in with
      | 0x0c :: a :: b :: c :: d :: _ =>
        if 4 ≤ avail_out then (true, 1, [a, b, c, d]) else (true, -5, [a, b, c, d].take avail_out)
      | _ => (true, -3, [])
    else (true, -5, List.replicate (min avail_out ZLIB_DICT_LENGTH) 0x58)
  compress := fun destLen source =>
    (0x78 :: 0x9c :: source.drop (source.length - 4)).take destLen

/-- Indeterminate values: `status` and `zz.total_out` as given, a zeroed heap. -/
def junk (status : Int) (total_out : Nat) : Indeterminate :=
  { status := status, total_out := total_out, heap := fun _ => 0 }

/-- An IEND chunk: length 0, tag, CRC. -/
def iend_chunk : List Nat := [0, 0, 0, 0, 0x49, 0x45, 0x4e, 0x44, 0xae, 0x42, 0x60, 0x82]

/-- The tag `IDAT`. -/
def idat_tag : List Nat := [0x49, 0x44, 0x41, 0x54]

/-- Signature, IEND chunk, then at once an empty IDAT chunk (its tag 4 bytes
after the end of the IEND chunk) and a `tEXt` chunk. -/
def input_tag_too_close : List Nat :=
  png_magic ++ iend_chunk ++ ([0, 0, 0, 0] ++ idat_tag ++ [0x35, 0xaf, 0x06, 0x1e])
    ++ [0, 0, 0, 0, 0x74, 0x45, 0x58, 0x74, 0, 0, 0, 0]

/-- Signature, IEND chunk, 16 bytes of filler, an empty IDAT chunk and a `tEXt`
chunk. -/
def input_foreign : List Nat :=
  png_magic ++ iend_chunk ++ List.replicate 16 0
    ++ ([0, 0, 0, 0] ++ idat_tag ++ [0x35, 0xaf, 0x06, 0x1e])
    ++ [0, 0, 0, 0, 0x74, 0x45, 0x58, 0x74, 0, 0, 0, 0]

/-- Signature, IEND chunk, 16 bytes of filler, an empty IDAT chunk and an IEND
chunk: the locator and the aggregator succeed and the residual buffer is
empty. -/
def input_empty_residual : List Nat :=
  png_magic ++ iend_chunk ++ List.replicate 16 0
    ++ ([0, 0, 0, 0] ++ idat_tag ++ [0x35, 0xaf, 0x06, 0x1e]) ++ iend_chunk

/-- Signature, IEND chunk, 16 bytes of filler, an IDAT chunk with the payload
`0c 58 01 02 03` and an IEND chunk. -/
def input_leak : List Nat :=
  png_magic ++ iend_chunk ++ List.replicate 16 0
    ++ ([0, 0, 0, 5] ++ idat_tag ++ [0x0c, 0x58, 1, 2, 3] ++ [0x2d, 0x38, 0xca, 0x8a])
    ++ iend_chunk

/-- Signature, IEND chunk (ending at 20), 12 bytes of filler, the four bytes
`a1 a2 a3 a4`, four more bytes, an empty IDAT chunk (starting at 40) and an
IEND chunk. -/
def input_fragment : List Nat :=
  png_magic ++ iend_chunk ++ List.replicate 12 0 ++ [0xa1, 0xa2, 0xa3, 0xa4] ++ [9, 9, 9, 9]
    ++ ([0, 0, 0, 0] ++ idat_tag ++ [0x35, 0xaf, 0x06, 0x1e]) ++ iend_chunk

/-- A stand-in decompressor that reports what it was handed: a trial (state
`true`) stores the number of input bytes lying inside the view it was pointed
into, then the declared `avail_in`, and reports `Z_DATA_ERROR`; priming
produces nothing. -/
def probeZlib : Zlib Bool where
  init := false
  inflate := fun primed next_in avail_in avail_out =>
    if primed then (true, -3, [next_in.length, avail_in].take avail_out)
    else (true, -5, [])
  compress := fun _ _ => []

/-- A residual buffer whose only position passing the filter is `i = 8`
(rotation 0, offset 1). -/
def idat_offset : List Nat := [0, 0x0c, 0, 0, 0, 0, 0, 0, 0]

/-- Signature, IEND chunk, 16 bytes of filler, an IDAT chunk with payload
`idat_offset` and an IEND chunk. -/
def input_offset : List Nat :=
  png_magic ++ iend_chunk ++ List.replicate 16 0
    ++ ([0, 0, 0, 9] ++ idat_tag ++ idat_offset ++ [0xf6, 0x9f, 0xa4, 0x1c])
    ++ iend_chunk

theorem bytes_of_u32_of_bytes (a b c d : Nat) (ha : a < 256) (hb : b < 256) (hc : c < 256)
    (hd : d < 256) : bytes_of_u32 (u32_of_bytes a b c d) = [a, b, c, d] := by
  simp only [bytes_of_u32, u32_of_bytes]
  congr 1
  · omega
  congr 1
  · omega
  congr 1
  · omega
  congr 1
  omega

theorem bytes_of_u32_SWAP32 (x : Nat) : bytes_of_u32 (SWAP32 x) = be32 x := by
  unfold SWAP32 be32
  exact bytes_of_u32_of_bytes _ _ _ _ (Nat.mod_lt _ (by decide)) (Nat.mod_lt _ (by decide))
    (Nat.mod_lt _ (by decide)) (Nat.mod_lt _ (by decide))

theorem u32_of_bytes_of_u32 (x : Nat) (h : x < U32) :
    u32_of_bytes (x % 256) (x / 256 % 256) (x / 65536 % 256) (x / 16777216 % 256) = x := by
  simp only [u32_of_bytes, U32] at *
  omega

theorem SWAP32_of_bytes (a b c d : Nat) (ha : a < 256) (hb : b < 256) (hc : c < 256)
    (hd : d < 256) : SWAP32 (u32_of_bytes a b c d) = u32_of_bytes d c b a := by
  have h := bytes_of_u32_of_bytes a b c d ha hb hc hd
  simp only [bytes_of_u32, List.cons.injEq, and_true] at h
  obtain ⟨h0, h1, h2, h3⟩ := h
  simp only [SWAP32, h0, h1, h2, h3]

theorem SWAP32_SWAP32 (x : Nat) (h : x < U32) : SWAP32 (SWAP32 x) = x := by
  have hs := SWAP32_of_bytes (x / 16777216 % 256) (x / 65536 % 256) (x / 256 % 256) (x % 256)
    (Nat.mod_lt _ (by decide)) (Nat.mod_lt _ (by decide))
    (Nat.mod_lt _ (by decide)) (Nat.mod_lt _ (by decide))
  rw [show SWAP32 x
      = u32_of_bytes (x / 16777216 % 256) (x / 65536 % 256) (x / 256 % 256) (x % 256) from rfl, hs]
  exact u32_of_bytes_of_u32 x h

theorem be32_length (x : Nat) : (be32 x).length = 4 := rfl

theorem bytes_of_u32_length (x : Nat) : (bytes_of_u32 x).length = 4 := rfl

/-! ## Memory -/

theorem store_mid (pre old post new : List Nat) (p : Nat) (hp : p = pre.length)
    (h : old.length = new.length) :
    store (pre ++ old ++ post) p new = .ok (pre ++ new ++ post) := by
  subst hp
  unfold store
  rw [if_pos (by simp [h])]
  congr 1
  have h1 : (pre ++ old ++ post).take pre.length = pre := by
    rw [List.append_assoc, List.take_left]
  have h2 : (pre ++ old ++ post).drop (pre.length + new.length) = post := by
    rw [← h, ← List.length_append, List.drop_left]
  rw [h1, h2]

theorem slice_mid (pre mid post : List Nat) (p n : Nat) (hp : p = pre.length)
    (hn : n = mid.length) : slice (pre ++ mid ++ post) p n = .ok mid := by
  subst hp hn
  unfold slice
  rw [if_pos (by simp)]
  congr 1
  rw [List.append_assoc, List.drop_left, List.take_left]

theorem slice_zero_take (data : List Nat) (n : Nat) (h : n ≤ data.length) :
    slice data 0 n = .ok (data.take n) := by
  unfold slice
  rw [if_pos (by omega)]
  rfl

/-- A buffer cut at `off` and `off + n`. -/
theorem split3 (out : List Nat) (off n : Nat) :
    out = out.take off ++ (out.drop off).take n ++ out.drop (off + n) := by
  rw [List.append_assoc, ← List.drop_drop, List.take_append_drop, List.take_append_drop]

/-! ## CRC-32 -/

theorem crc32_append (c : Nat) (a b : List Nat) : crc32 (crc32 c a) b = crc32 c (a ++ b) := by
  simp only [crc32, List.foldl_append]
  rw [Nat.xor_assoc, Nat.xor_self, Nat.xor_zero]

theorem crc32_nil_right (c : Nat) (a : List Nat) : crc32 c a = crc32 c (a ++ []) := by
  rw [List.append_nil]

/-! ## write_idat_chunk -/

theorem record_length (chunk_type : Nat) (payload : List Nat) :
    (record chunk_type payload).length = 12 + payload.length := by
  simp [record, be32_length, bytes_of_u32_length]
  omega

theorem write_idat_chunk_eq (out : List Nat) (off chunk_length chunk_type : Nat)
    (data : List Nat) (hdata : chunk_length ≤ data.length)
    (hroom : off + 12 + chunk_length ≤ out.length) :
    write_idat_chunk out off chunk_length chunk_type data
      = .ok (out.take off ++ (be32 chunk_length ++ bytes_of_u32 chunk_type
          ++ data.take chunk_length
          ++ be32 (crc32 0 (bytes_of_u32 chunk_type ++ data.take chunk_length)))
          ++ out.drop (off + 12 + chunk_length)) := by
  have hcut := split3 out off (12 + chunk_length)
  have hmid : ((out.drop off).take (12 + chunk_length)).length = 12 + chunk_length := by
    simp; omega
  generalize (out.drop off).take (12 + chunk_length) = mid at hcut hmid
  have hpre : (out.take off).length = off := by simp; omega
  generalize out.take off = pre at hcut hpre
  rw [show off + 12 + chunk_length = off + (12 + chunk_length) by omega]
  generalize out.drop (off + (12 + chunk_length)) = post at hcut
  subst hcut
  obtain ⟨m1, m2, rfl, h1⟩ : ∃ m1 m2, mid = m1 ++ m2 ∧ m1.length = 4 :=
    ⟨mid.take 4, mid.drop 4, (List.take_append_drop 4 mid).symm, by simp; omega⟩
  obtain ⟨m2, m3, rfl, h2⟩ : ∃ a b, m2 = a ++ b ∧ a.length = 4 :=
    ⟨m2.take 4, m2.drop 4, (List.take_append_drop 4 m2).symm, by simp at hmid ⊢; omega⟩
  obtain ⟨m3, m4, rfl, h3⟩ : ∃ a b, m3 = a ++ b ∧ a.length = chunk_length :=
    ⟨m3.take chunk_length, m3.drop chunk_length, (List.take_append_drop _ m3).symm,
      by simp at hmid ⊢; omega⟩
  have h4 : m4.length = 4 := by simp at hmid; omega
  unfold write_idat_chunk
  simp only [bytes_of_u32_SWAP32]
  have s1 : store (pre ++ (m1 ++ (m2 ++ (m3 ++ m4))) ++ post) off (be32 chunk_length)
      = .ok (pre ++ be32 chunk_length ++ ((m2 ++ (m3 ++ m4)) ++ post)) := by
    have := store_mid pre m1 ((m2 ++ (m3 ++ m4)) ++ post) (be32 chunk_length) off hpre.symm
      (by rw [h1, be32_length])
    simpa [List.append_assoc] using this
  have s2 : store (pre ++ be32 chunk_length ++ ((m2 ++ (m3 ++ m4)) ++ post)) (off + 4)
      (bytes_of_u32 chunk_type)
      = .ok (pre ++ be32 chunk_length ++ bytes_of_u32 chunk_type ++ ((m3 ++ m4) ++ post)) := by
    have := store_mid (pre ++ be32 chunk_length) m2 ((m3 ++ m4) ++ post)
      (bytes_of_u32 chunk_type) (off + 4) (by simp [hpre, be32_length])
      (by rw [h2, bytes_of_u32_length])
    simpa [List.append_assoc] using this
  rw [s1]
  simp only [Outcome.bind]
  rw [s2]
  simp only [Outcome.bind]
  by_cases hz : chunk_length > 0
  · simp only [if_pos hz, slice_zero_take data chunk_length hdata, Outcome.bind, crc32_append]
    have s3 : store (pre ++ be32 chunk_length ++ bytes_of_u32 chunk_type ++ ((m3 ++ m4) ++ post))
        (off + 8) (data.take chunk_length)
        = .ok (pre ++ be32 chunk_length ++ bytes_of_u32 chunk_type ++ data.take chunk_length
            ++ (m4 ++ post)) := by
      have := store_mid (pre ++ be32 chunk_length ++ bytes_of_u32 chunk_type) m3 (m4 ++ post)
        (data.take chunk_length) (off + 8)
        (by simp [hpre, be32_length, bytes_of_u32_length])
        (by rw [h3, List.length_take]; omega)
      simpa [List.append_assoc] using this
    rw [s3]
    simp only [Outcome.bind]
    have := store_mid (pre ++ be32 chunk_length ++ bytes_of_u32 chunk_type
        ++ data.take chunk_length) m4 post
        (be32 (crc32 0 (bytes_of_u32 chunk_type ++ data.take chunk_length)))
        (off + 8 + chunk_length)
        (by simp [hpre, be32_length, bytes_of_u32_length]; omega)
        (by rw [h4, be32_length])
    simpa [List.append_assoc] using this
  · have hz0 : chunk_length = 0 := by omega
    subst hz0
    have hm3 : m3 = [] := List.length_eq_zero.mp h3
    subst hm3
    simp only [gt_iff_lt, lt_self_iff_false, if_false, Outcome.bind, List.take_zero,
      List.append_nil, List.nil_append]
    have := store_mid (pre ++ be32 0 ++ bytes_of_u32 chunk_type) m4 post
        (be32 (crc32 0 (bytes_of_u32 chunk_type))) (off + 8)
        (by simp [hpre, be32_length, bytes_of_u32_length])
        (by rw [h4, be32_length])
    simpa [List.append_assoc] using this

/-- The checksum is the standard CRC-32: its check value on the ASCII digits
`123456789` is `0xCBF43926`. -/
theorem crc32_check :
    crc32 0 [0x31, 0x32, 0x33, 0x34, 0x35, 0x36, 0x37, 0x38, 0x39] = 0xCBF43926 := by
  decide!

theorem write_idat_chunk_whole (out : List Nat) (off chunk_type : Nat) (payload : List Nat)
    (hroom : off + 12 + payload.length ≤ out.length) :
    write_idat_chunk out off payload.length chunk_type payload
      = .ok (out.take off
          ++ (be32 payload.length ++ bytes_of_u32 chunk_type ++ payload
              ++ be32 (crc32 0 (bytes_of_u32 chunk_type ++ payload)))
          ++ out.drop (off + 12 + payload.length)) := by
  have h := write_idat_chunk_eq out off payload.length chunk_type payload (le_refl _) hroom
  rw [List.take_length] at h
  exact h

/-- C7: for every type tag and payload, `write_idat_chunk` writes the payload
length as 4 big-endian bytes, the 4 type-tag bytes, the payload, then the
big-endian CRC-32 of the tag bytes followed by the payload (of the tag alone
when the payload is empty), and touches nothing else of the destination. -/
theorem write_idat_chunk_layout (out : List Nat) (off chunk_type : Nat) (payload : List Nat)
    (hroom : off + 12 + payload.length ≤ out.length) :
    write_idat_chunk out off payload.length chunk_type payload
      = .ok (out.take off
          ++ (be32 payload.length ++ bytes_of_u32 chunk_type ++ payload
              ++ be32 (crc32 0 (bytes_of_u32 chunk_type ++ payload)))
          ++ out.drop (off + 12 + payload.length)) :=
  write_idat_chunk_whole out off chunk_type payload hroom

theorem write_idat_chunk_layout_witness :
    1 + 12 + [0x61, 0x62].length ≤ (List.replicate 16 7).length ∧
    write_idat_chunk (List.replicate 16 7) 1 [0x61, 0x62].length CHUNK_TYPE_IDAT [0x61, 0x62]
      = .ok ((List.replicate 16 7).take 1
          ++ (be32 [0x61, 0x62].length ++ bytes_of_u32 CHUNK_TYPE_IDAT ++ [0x61, 0x62]
              ++ be32 (crc32 0 (bytes_of_u32 CHUNK_TYPE_IDAT ++ [0x61, 0x62])))
          ++ (List.replicate 16 7).drop (1 + 12 + [0x61, 0x62].length)) :=
  ⟨by decide, write_idat_chunk_layout _ 1 CHUNK_TYPE_IDAT [0x61, 0x62] (by decide)⟩

/-! ## The image length -/

theorem image_length_mod (width height : Nat) :
    image_length width height = ((width * 3 + 1) * height) % U32 := by
  unfold image_length
  conv_rhs => rw [Nat.mul_mod, Nat.add_mod]
  conv_lhs => rw [Nat.mul_mod]
  simp

/-- C9, as stated, fails: for width 65536 and height 65536 the image length used
is 65536, not `((65536 * 3) + 1) * 65536`. -/
theorem image_length_overflow :
    65536 < U32 ∧ image_length 65536 65536 = 65536
      ∧ image_length 65536 65536 ≠ ((65536 * 3) + 1) * 65536 := by
  decide

/-- C9, amended: the image length is `((width * 3) + 1) * height` reduced modulo
`2 ^ 32`, a function of the declared dimensions only. -/
theorem image_length_wraps (width height : Nat) :
    image_length width height = ((width * 3 + 1) * height) % 2 ^ 32 :=
  image_length_mod width height

/-! ## The signature check -/

theorem slice_magic (inp : List Nat) (h : 8 ≤ inp.length) :
    slice inp 0 png_magic.length = .ok (inp.take 8) := by
  unfold slice
  rw [if_pos (by simpa [png_magic] using h)]
  rfl

/-- C2: when the first 8 bytes of the input differ from the PNG signature,
`acropalypse_recover` returns -1 and the output buffer is unchanged. -/
theorem invalid_signature {σ : Type} (Z : Zlib σ) (g : Indeterminate) (inp out : List Nat)
    (width height : Nat) (hlen : 8 ≤ inp.length) (hsig : inp.take 8 ≠ png_magic) :
    acropalypse_recover Z g inp out width height = .ok (-1, out) := by
  unfold acropalypse_recover
  rw [slice_magic inp hlen]
  simp only [Outcome.bind]
  rw [if_pos hsig]

theorem invalid_signature_witness :
    8 ≤ [0x89, 0x50, 0x4E, 0x47, 0x0D, 0x0A, 0x1A, 0x0B, 0, 0].length
      ∧ [0x89, 0x50, 0x4E, 0x47, 0x0D, 0x0A, 0x1A, 0x0B, 0, 0].take 8 ≠ png_magic
      ∧ acropalypse_recover toyZlib (junk 0 0) [0x89, 0x50, 0x4E, 0x47, 0x0D, 0x0A, 0x1A, 0x0B, 0, 0]
          [1, 2, 3] 1 1 = .ok (-1, [1, 2, 3]) :=
  ⟨by decide, by decide,
    invalid_signature toyZlib (junk 0 0) [0x89, 0x50, 0x4E, 0x47, 0x0D, 0x0A, 0x1A, 0x0B, 0, 0]
      [1, 2, 3] 1 1 (by decide) (by decide)⟩

/-! ## The truncation locator -/

theorem load32_ok (mem : List Nat) (p w : Nat) (h : load32 mem p = .ok w) :
    p + 4 ≤ mem.length := by
  unfold load32 at h
  have hl : (mem.drop p).length = mem.length - p := List.length_drop p mem
  split at h
  · rename_i b0 b1 b2 b3 tl heq
    rw [heq] at hl
    simp at hl
    omega
  · cases h

theorem bind_ok {α β : Type} (x : Outcome α) (f : α → Outcome β) (b : β)
    (h : x.bind f = .ok b) : ∃ a, x = .ok a ∧ f a = .ok b := by
  cases x with
  | ok a => exact ⟨a, rfl, h⟩
  | undefined => cases h
  | fuelOut => cases h

theorem ok_bind {α β : Type} (a : α) (f : α → Outcome β) : (Outcome.ok a).bind f = f a := rfl

theorem parse_chunk_ok (inp : List Nat) (c : Nat) (ch : Chunk)
    (h : parse_chunk inp c = .ok ch) :
    c + 8 ≤ inp.length ∧ ch.next = (c + (12 + ch.chunk_length) % U32) % U32
      ∧ ch.chunk_data = c + 8 := by
  unfold parse_chunk at h
  obtain ⟨w0, h0, h⟩ := bind_ok _ _ _ h
  obtain ⟨w1, h1, h⟩ := bind_ok _ _ _ h
  have := load32_ok _ _ _ h1
  cases h
  exact ⟨by omega, rfl, rfl⟩

theorem next_in_bounds (inp : List Nat) (c : Nat) (ch : Chunk) (hlen : inp.length + 4 < U32)
    (hp : parse_chunk inp c = .ok ch) (hin : ch.chunk_data + ch.chunk_length ≤ inp.length) :
    ch.next = c + 12 + ch.chunk_length := by
  obtain ⟨-, hn, hd⟩ := parse_chunk_ok _ _ _ hp
  rw [hn]
  simp only [U32] at hlen ⊢
  omega

theorem aggregate_foreign (inp : List Nat) (hlen : inp.length + 4 < U32) (c : Nat)
    (hw : ForeignAhead inp c) :
    ∀ (fuel : Nat) (idat : List Nat), inp.length < fuel + c → idat.length + 16 ≤ c →
      aggregate inp fuel c idat = .ok none := by
  induction hw with
  | here c ch hp h1 h2 =>
    intro fuel idat hf _
    obtain ⟨hb, -, -⟩ := parse_chunk_ok _ _ _ hp
    obtain ⟨fuel, rfl⟩ : ∃ k, fuel = k + 1 := ⟨fuel - 1, by omega⟩
    unfold aggregate
    rw [hp]
    simp only [Outcome.bind, if_neg h1, if_neg h2]
  | step c ch hp h1 hin _ ih =>
    intro fuel idat hf hi
    obtain ⟨hb, hn, hd⟩ := parse_chunk_ok _ _ _ hp
    obtain ⟨fuel, rfl⟩ : ∃ k, fuel = k + 1 := ⟨fuel - 1, by omega⟩
    have hnw : ch.next = c + 12 + ch.chunk_length :=
      next_in_bounds inp c ch hlen hp hin
    unfold aggregate
    rw [hp]
    simp only [Outcome.bind, if_pos h1]
    have hs : slice inp ch.chunk_data ch.chunk_length
        = .ok ((inp.drop ch.chunk_data).take ch.chunk_length) := by
      unfold slice
      rw [if_pos hin]
    rw [hs]
    simp only [Outcome.bind]
    rw [if_pos (by omega)]
    apply ih
    · omega
    · simp only [List.length_append, List.length_take, List.length_drop]
      omega

theorem foreignAhead_bound (inp : List Nat) (c : Nat) (hw : ForeignAhead inp c) :
    c + 8 ≤ inp.length := by
  cases hw with
  | here _ ch hp _ _ => exact (parse_chunk_ok _ _ _ hp).1
  | step _ ch hp _ _ _ => exact (parse_chunk_ok _ _ _ hp).1

/-- C4, as stated, fails: the locator succeeds (IEND ends at 20, the tag is found
at 24, the cursor is rewound to 20) and the walk from 20 meets an IDAT record
and then a `tEXt` record, but the tag lies only 4 bytes after `end`, the
length `trailer - end - 16` of the leading fragment wraps to `2 ^ 32 - 16`,
and the copy of that many bytes leaves the input: the run is undefined, not
a return of -3. -/
theorem foreign_chunk_not_rejected :
    find_iend input_tag_too_close (input_tag_too_close.length + 1) 8 = .ok 20
      ∧ seek_idat_chunk input_tag_too_close (input_tag_too_close.length + 1) 20
          input_tag_too_close.length = .ok (some 20)
      ∧ ForeignAhead input_tag_too_close 20
      ∧ acropalypse_recover toyZlib (junk 0 0) input_tag_too_close [] 1 1 = .undefined
      ∧ acropalypse_recover toyZlib (junk 0 0) input_tag_too_close [] 1 1 ≠ .ok (-3, []) :=
  ⟨rfl, rfl,
    .step 20 ⟨32, 0, CHUNK_TYPE_IDAT, 28⟩ rfl rfl (by decide)
      (.here 32 ⟨44, 0, 0x74584574, 40⟩ rfl (by decide) (by decide)),
    by decide!, by decide!⟩

/-- C4, amended: when the signature is valid, the IEND search ends at `e`, the
scan finds the tag and rewinds to `t` with `e + 16 ≤ t` (the tag is at least
20 bytes after `e`), and the records walked from `t` are IDAT records lying
inside the input followed by a record that is neither IDAT nor IEND, the
function returns -3 and leaves the output buffer unchanged. -/
theorem foreign_chunk_rejected {σ : Type} (Z : Zlib σ) (g : Indeterminate) (inp out : List Nat)
    (width height e t : Nat) (hlen : inp.length + 4 < U32) (hsig : inp.take 8 = png_magic)
    (hend : find_iend inp (inp.length + 1) 8 = .ok e)
    (hseek : seek_idat_chunk inp (inp.length + 1) e inp.length = .ok (some (t : Int)))
    (hgap : e + 16 ≤ t) (hwalk : ForeignAhead inp t) :
    acropalypse_recover Z g inp out width height = .ok (-3, out) := by
  have hb := foreignAhead_bound inp t hwalk
  unfold acropalypse_recover
  rw [slice_magic inp (by omega)]
  simp only [Outcome.bind]
  rw [if_neg (by simpa using hsig), hend]
  simp only [Outcome.bind]
  rw [hseek]
  simp only [Outcome.bind]
  have hd : distance e (t : Int) = t - e - 16 := by
    unfold distance
    have h1 : ((t : Int) - (e : Int) - 4 * 4) = ((t - e - 16 : Nat) : Int) := by omega
    rw [h1, ← Int.natCast_mod, Int.toNat_natCast]
    exact Nat.mod_eq_of_lt (by omega)
  unfold leading_fragment
  rw [hd]
  have hs : slice inp (e + 4 * 3) (t - e - 16)
      = .ok ((inp.drop (e + 4 * 3)).take (t - e - 16)) := by
    unfold slice
    rw [if_pos (by omega)]
  rw [hs]
  simp only [Outcome.bind]
  rw [if_neg (by omega), Int.toNat_natCast,
    aggregate_foreign inp hlen t hwalk (inp.length + 1) _ (by omega)
      (by simp only [List.length_take, List.length_drop]; omega)]

theorem foreign_chunk_rejected_witness :
    input_foreign.length + 4 < U32 ∧ input_foreign.take 8 = png_magic
      ∧ find_iend input_foreign (input_foreign.length + 1) 8 = .ok 20
      ∧ seek_idat_chunk input_foreign (input_foreign.length + 1) 20 input_foreign.length
          = .ok (some ((36 : Nat) : Int))
      ∧ 20 + 16 ≤ 36 ∧ ForeignAhead input_foreign 36
      ∧ acropalypse_recover toyZlib (junk 0 0) input_foreign [] 1 1 = .ok (-3, []) :=
  have hw : ForeignAhead input_foreign 36 :=
    .step 36 ⟨48, 0, CHUNK_TYPE_IDAT, 44⟩ rfl rfl (by decide)
      (.here 48 ⟨60, 0, 0x74584574, 56⟩ rfl (by decide) (by decide))
  ⟨by decide, by decide, rfl, rfl, by decide, hw,
    foreign_chunk_rejected toyZlib (junk 0 0) input_foreign [] 1 1 20 36 (by decide)
      (by decide) rfl rfl (by decide) hw⟩

/-! ## Round trip: write_idat_chunk then parse_chunk -/

theorem records_bytes_length (rs : List (Nat × List Nat)) :
    (records_bytes rs).length = serialised_length rs := by
  induction rs with
  | nil => rfl
  | cons r rs ih =>
    obtain ⟨ty, payload⟩ := r
    simp only [records_bytes, serialised_length, List.length_append, record_length, ih]

theorem write_records_eq (rs : List (Nat × List Nat)) :
    ∀ pre rest : List Nat, serialised_length rs ≤ rest.length →
      write_records (pre ++ rest) pre.length rs
        = .ok (pre ++ records_bytes rs ++ rest.drop (serialised_length rs)) := by
  induction rs with
  | nil =>
    intro pre rest _
    simp [write_records, records_bytes, serialised_length]
  | cons r rs ih =>
    obtain ⟨ty, payload⟩ := r
    intro pre rest hroom
    simp only [serialised_length] at hroom
    unfold write_records
    rw [write_idat_chunk_whole (pre ++ rest) pre.length ty payload
      (by simp only [List.length_append]; omega)]
    simp only [Outcome.bind]
    have h1 : (pre ++ rest).take pre.length = pre := List.take_left _ _
    have h2 : (pre ++ rest).drop (pre.length + 12 + payload.length)
        = rest.drop (12 + payload.length) := by
      rw [show pre.length + 12 + payload.length = pre.length + (12 + payload.length) by omega,
        List.drop_append]
    rw [h1, h2]
    have := ih (pre ++ record ty payload) (rest.drop (12 + payload.length))
      (by simp only [List.length_drop]; omega)
    simp only [List.length_append, record_length] at this
    rw [show pre.length + 12 + payload.length = pre.length + (12 + payload.length) by omega]
    simp only [record] at this ⊢
    rw [this]
    simp only [records_bytes, serialised_length, record, List.append_assoc, List.drop_drop]

theorem serialise_eq (rs : List (Nat × List Nat)) : serialise rs = .ok (records_bytes rs) := by
  have := write_records_eq rs [] (List.replicate (serialised_length rs) 0) (by simp)
  simpa [serialise] using this

theorem u32_of_be32 (x : Nat) (h : x < U32) :
    SWAP32 (u32_of_bytes (x / 16777216 % 256) (x / 65536 % 256) (x / 256 % 256) (x % 256))
      = x := by
  rw [SWAP32_of_bytes _ _ _ _ (Nat.mod_lt _ (by decide)) (Nat.mod_lt _ (by decide))
    (Nat.mod_lt _ (by decide)) (Nat.mod_lt _ (by decide))]
  exact u32_of_bytes_of_u32 x h

theorem parse_chunk_record (pre post payload : List Nat) (ty : Nat) (hty : ty < U32)
    (hlen : pre.length + 12 + payload.length < U32) :
    parse_chunk (pre ++ record ty payload ++ post) pre.length
      = .ok { next := pre.length + 12 + payload.length, chunk_length := payload.length,
              chunk_type := ty, chunk_data := pre.length + 8 } := by
  have h0 : load32 (pre ++ record ty payload ++ post) pre.length
      = .ok (u32_of_bytes (payload.length / 16777216 % 256) (payload.length / 65536 % 256)
          (payload.length / 256 % 256) (payload.length % 256)) := by
    simp [load32, record, be32, List.append_assoc]
  have h1 : load32 (pre ++ record ty payload ++ post) (pre.length + 4) = .ok ty := by
    have hd : (pre ++ record ty payload ++ post).drop (pre.length + 4)
        = bytes_of_u32 ty ++ (payload
            ++ be32 (crc32 0 (bytes_of_u32 ty ++ payload)) ++ post) := by
      have : pre ++ record ty payload ++ post
          = (pre ++ be32 payload.length) ++ (bytes_of_u32 ty ++ (payload
            ++ be32 (crc32 0 (bytes_of_u32 ty ++ payload)) ++ post)) := by
        simp [record, List.append_assoc]
      rw [this, show pre.length + 4 = (pre ++ be32 payload.length).length by
        simp [be32_length], List.drop_left]
    unfold load32
    rw [hd]
    simp only [bytes_of_u32, List.cons_append, List.nil_append]
    rw [u32_of_bytes_of_u32 ty hty]
  unfold parse_chunk
  rw [h0, h1]
  simp only [Outcome.bind]
  rw [u32_of_be32 _ (by omega), Nat.mod_eq_of_lt (by omega : 4 * 3 + payload.length < U32),
    Nat.mod_eq_of_lt (by omega)]
  congr 2
  omega

theorem parse_chunks_records (rs : List (Nat × List Nat))
    (hrs : ∀ r ∈ rs, r.1 < U32 ∧ r.2.length + 12 < U32) :
    ∀ pre post : List Nat, pre.length + serialised_length rs < U32 →
      parse_chunks (pre ++ records_bytes rs ++ post) rs.length pre.length
        = .ok (constructed pre.length rs, pre.length + serialised_length rs) := by
  induction rs with
  | nil => intro pre post _; rfl
  | cons r rs ih =>
    obtain ⟨ty, payload⟩ := r
    intro pre post hfit
    simp only [serialised_length] at hfit
    obtain ⟨hty, -⟩ := hrs (ty, payload) (List.mem_cons_self _ _)
    have hlen : pre.length + 12 + payload.length < U32 := by omega
    have hcut : pre ++ records_bytes ((ty, payload) :: rs) ++ post
        = pre ++ record ty payload ++ (records_bytes rs ++ post) := by
      simp [records_bytes, List.append_assoc]
    have hih := ih (fun r hr => hrs r (List.mem_cons_of_mem _ hr)) (pre ++ record ty payload) post
      (by simp only [List.length_append, record_length]; omega)
    simp only [List.length_append, record_length] at hih
    simp only [List.length_cons, parse_chunks]
    rw [hcut, parse_chunk_record pre _ payload ty hty hlen]
    simp only [Outcome.bind]
    rw [show pre.length + 12 + payload.length = pre.length + (12 + payload.length) by omega,
      ← List.append_assoc, hih]
    simp only [constructed, serialised_length]
    rw [show pre.length + 12 + payload.length = pre.length + (12 + payload.length) by omega,
      show pre.length + (12 + payload.length + serialised_length rs)
        = pre.length + (12 + payload.length) + serialised_length rs by omega]

theorem payloads_records (rs : List (Nat × List Nat)) :
    ∀ pre post : List Nat,
      (constructed pre.length rs).map
          (fun ch => slice (pre ++ records_bytes rs ++ post) ch.chunk_data ch.chunk_length)
        = rs.map (fun r => Outcome.ok r.2) := by
  induction rs with
  | nil => intro pre post; rfl
  | cons r rs ih =>
    obtain ⟨ty, payload⟩ := r
    intro pre post
    have hih := ih (pre ++ record ty payload) post
    simp only [List.length_append, record_length] at hih
    simp only [constructed, List.map_cons, records_bytes]
    congr 1
    · have : pre ++ (record ty payload ++ records_bytes rs) ++ post
          = (pre ++ be32 payload.length ++ bytes_of_u32 ty) ++ payload
            ++ (be32 (crc32 0 (bytes_of_u32 ty ++ payload)) ++ records_bytes rs ++ post) := by
        simp [record, List.append_assoc]
      rw [this]
      exact slice_mid _ _ _ _ _ (by simp [be32_length, bytes_of_u32_length]) rfl
    · rw [show pre.length + 12 + payload.length = pre.length + (12 + payload.length) by omega,
        ← List.append_assoc]
      exact hih

/-- C6: for every finite sequence of records (type tag word below `2 ^ 32`,
payload shorter than `2 ^ 32 - 12`, the serialised bytes fitting a 32-bit
address space) serialised back-to-back by `write_idat_chunk`, repeated
`parse_chunk` from offset 0 decodes for each record, in order, its length and
type tag and a payload position at which the payload bytes lie, advances the
cursor by `12 + length` each time, and ends with the cursor at the end of the
serialised bytes. -/
theorem parse_chunk_write_idat_chunk_roundtrip (rs : List (Nat × List Nat))
    (hrs : ∀ r ∈ rs, r.1 < U32 ∧ r.2.length + 12 < U32)
    (hfit : serialised_length rs < U32) :
    ∃ bytes, serialise rs = .ok bytes
      ∧ parse_chunks bytes rs.length 0 = .ok (constructed 0 rs, bytes.length)
      ∧ (constructed 0 rs).map (fun ch => slice bytes ch.chunk_data ch.chunk_length)
          = rs.map (fun r => Outcome.ok r.2) := by
  refine ⟨records_bytes rs, serialise_eq rs, ?_, ?_⟩
  · have := parse_chunks_records rs hrs [] [] (by simpa using hfit)
    simpa [records_bytes_length] using this
  · have := payloads_records rs [] []
    simpa using this

theorem parse_chunk_write_idat_chunk_roundtrip_witness :
    (∀ r ∈ [(CHUNK_TYPE_IHDR, [1, 2, 3]), (CHUNK_TYPE_IDAT, []), (CHUNK_TYPE_IEND, [9])],
        r.1 < U32 ∧ r.2.length + 12 < U32)
      ∧ serialised_length
          [(CHUNK_TYPE_IHDR, [1, 2, 3]), (CHUNK_TYPE_IDAT, []), (CHUNK_TYPE_IEND, [9])] < U32
      ∧ ∃ bytes,
        serialise [(CHUNK_TYPE_IHDR, [1, 2, 3]), (CHUNK_TYPE_IDAT, []), (CHUNK_TYPE_IEND, [9])]
          = .ok bytes
        ∧ parse_chunks bytes 3 0
          = .ok ([⟨15, 3, CHUNK_TYPE_IHDR, 8⟩, ⟨27, 0, CHUNK_TYPE_IDAT, 23⟩,
              ⟨40, 1, CHUNK_TYPE_IEND, 35⟩], bytes.length)
        ∧ [slice bytes 8 3, slice bytes 23 0, slice bytes 35 1]
          = [.ok [1, 2, 3], .ok [], .ok [9]] :=
  ⟨by decide, by decide,
    parse_chunk_write_idat_chunk_roundtrip
      [(CHUNK_TYPE_IHDR, [1, 2, 3]), (CHUNK_TYPE_IDAT, []), (CHUNK_TYPE_IEND, [9])] (by decide)
      (by decide)⟩

/-! ## The status of the trials -/

theorem trial_loop_no_trial {σ : Type} (Z : Zlib σ) (z : ZStream σ) (st : TrialState) :
    trial_loop Z z [] ([] : List Nat).length st = .ok st := rfl

/-- C5: on an input whose residual buffer is empty no trial is run, `status` is
never assigned, and the return value follows the indeterminate value it
holds: when that value is `Z_STREAM_END` (and `zz.total_out` holds 32768) the
function writes a file and returns 61 instead of -4. -/
theorem empty_residual_not_rejected :
    aggregate input_empty_residual (input_empty_residual.length + 1) 36 [] = .ok (some [])
      ∧ acropalypse_recover toyZlib (junk Z_STREAM_END 32768) input_empty_residual
          (List.replicate 64 0) 1 1
        = .ok (61, [137, 80, 78, 71, 13, 10, 26, 10, 0, 0, 0, 13, 73, 72, 68, 82, 0, 0, 0, 1,
            0, 0, 0, 1, 8, 2, 0, 0, 0, 144, 119, 83, 222, 0, 0, 0, 4, 73, 68, 65, 84, 120, 156,
            0, 0, 176, 161, 46, 224, 0, 0, 0, 0, 73, 69, 78, 68, 174, 66, 96, 130, 0, 0, 0])
      ∧ acropalypse_recover toyZlib (junk Z_STREAM_END 32768) input_empty_residual
          (List.replicate 64 0) 1 1 ≠ .ok (-4, List.replicate 64 0) := by
  refine ⟨rfl, ?_, ?_⟩ <;> decide!

/-! ## Repeated runs -/

/-- C10: two runs on the same input, output buffer, width and height that differ
only in the indeterminate value of the unassigned `status` give different
results: one returns -4 and leaves the output untouched, the other writes a
file and returns 61. -/
theorem runs_differ_on_empty_residual :
    acropalypse_recover toyZlib (junk 0 32768) input_empty_residual (List.replicate 64 0) 1 1
        = .ok (-4, List.replicate 64 0)
      ∧ acropalypse_recover toyZlib (junk Z_STREAM_END 32768) input_empty_residual
          (List.replicate 64 0) 1 1
        ≠ acropalypse_recover toyZlib (junk 0 32768) input_empty_residual
          (List.replicate 64 0) 1 1 := by
  refine ⟨?_, ?_⟩ <;> decide!

/-! ## The encoder -/

theorem store_ok (mem : List Nat) (p : Nat) (bytes out : List Nat)
    (h : store mem p bytes = .ok out) :
    p + bytes.length ≤ mem.length
      ∧ out = mem.take p ++ bytes ++ mem.drop (p + bytes.length) ∧ out.length = mem.length := by
  unfold store at h
  split at h
  · rename_i hle
    cases h
    refine ⟨hle, rfl, ?_⟩
    simp only [List.length_append, List.length_take, List.length_drop]
    omega
  · cases h

theorem slice_ok (mem : List Nat) (p n : Nat) (bytes : List Nat)
    (h : slice mem p n = .ok bytes) :
    p + n ≤ mem.length ∧ bytes = (mem.drop p).take n := by
  unfold slice at h
  split at h
  · rename_i hle
    cases h
    exact ⟨hle, rfl⟩
  · cases h

theorem write_idat_chunk_ok (out : List Nat) (off n ty : Nat) (data out1 : List Nat)
    (h : write_idat_chunk out off n ty data = .ok out1) :
    off + 12 + n ≤ out.length ∧ n ≤ data.length ∧ out1.length = out.length := by
  unfold write_idat_chunk at h
  obtain ⟨c, hc, h⟩ := bind_ok _ _ _ h
  obtain ⟨o1, h1, h⟩ := bind_ok _ _ _ h
  obtain ⟨o2, h2, h⟩ := bind_ok _ _ _ h
  obtain ⟨o3, h3, h⟩ := bind_ok _ _ _ h
  obtain ⟨-, -, l1⟩ := store_ok _ _ _ _ h1
  obtain ⟨-, -, l2⟩ := store_ok _ _ _ _ h2
  obtain ⟨b4, -, l5⟩ := store_ok _ _ _ _ h
  simp only [bytes_of_u32_length] at b4
  by_cases hz : n > 0
  · rw [if_pos hz] at h3 hc
    obtain ⟨pl, hp, h3⟩ := bind_ok _ _ _ h3
    obtain ⟨o4, h4, h3⟩ := bind_ok _ _ _ h3
    obtain ⟨bp, -⟩ := slice_ok _ _ _ _ hp
    obtain ⟨-, -, l4⟩ := store_ok _ _ _ _ h4
    cases h3
    simp only at b4 l5
    exact ⟨by omega, by omega, by omega⟩
  · rw [if_neg hz] at h3
    cases h3
    simp only at b4 l5
    exact ⟨by omega, by omega, by omega⟩

theorem header_bytes_eq (width height : Nat) :
    header_bytes width height = be32 width ++ be32 height ++ [8, 2, 0, 0, 0] := by
  simp only [header_bytes, bytes_of_u32_SWAP32]

theorem to_int_nonneg (x : Nat) (hx : x < U32) (h : 0 ≤ to_int x) : to_int x = (x : Int) := by
  unfold to_int at *
  rw [Nat.mod_eq_of_lt hx] at *
  split
  · rfl
  · rename_i hn
    rw [if_neg hn] at h
    simp only [U32] at hx
    omega

theorem header_bytes_length (width height : Nat) : (header_bytes width height).length = 13 :=
  rfl

theorem layout_eq (out cd : List Nat) (width height : Nat) :
    png_magic
        ++ records_bytes [(CHUNK_TYPE_IHDR, header_bytes width height), (CHUNK_TYPE_IDAT, cd),
            (CHUNK_TYPE_IEND, [])]
        ++ (out.drop 8).drop (serialised_length
            [(CHUNK_TYPE_IHDR, header_bytes width height), (CHUNK_TYPE_IDAT, cd),
              (CHUNK_TYPE_IEND, [])])
      = png_magic
          ++ record CHUNK_TYPE_IHDR (be32 width ++ be32 height ++ [8, 2, 0, 0, 0])
          ++ record CHUNK_TYPE_IDAT cd
          ++ record CHUNK_TYPE_IEND []
          ++ out.drop (57 + cd.length) := by
  have hs : serialised_length [(CHUNK_TYPE_IHDR, header_bytes width height),
      (CHUNK_TYPE_IDAT, cd), (CHUNK_TYPE_IEND, [])] = 49 + cd.length := by
    simp only [serialised_length, header_bytes_length, List.length_nil]
    omega
  rw [hs, List.drop_drop, show 8 + (49 + cd.length) = 57 + cd.length by omega]
  simp only [records_bytes, header_bytes_eq, List.append_assoc, List.append_nil]

theorem encode_ok {σ : Type} (Z : Zlib σ) (out : List Nat) (width height : Nat)
    (st : TrialState) (r : Int) (out1 : List Nat) (hout : out.length < U32)
    (h : encode Z out width height st = .ok (r, out1)) (hr : 0 ≤ r) :
    ∃ img, repair width height st.decompressed st.total_out = .ok img
      ∧ out1 = png_magic
          ++ record CHUNK_TYPE_IHDR (be32 width ++ be32 height ++ [8, 2, 0, 0, 0])
          ++ record CHUNK_TYPE_IDAT (Z.compress (image_length width height) img)
          ++ record CHUNK_TYPE_IEND []
          ++ out.drop (57 + (Z.compress (image_length width height) img).length)
      ∧ r = 57 + ((Z.compress (image_length width height) img).length : Int) := by
  unfold encode at h
  obtain ⟨o1, h1, h⟩ := bind_ok _ _ _ h
  obtain ⟨o2, h2, h⟩ := bind_ok _ _ _ h
  obtain ⟨img, hi, h⟩ := bind_ok _ _ _ h
  obtain ⟨o3, h3, h⟩ := bind_ok _ _ _ h
  obtain ⟨o4, h4, h⟩ := bind_ok _ _ _ h
  refine ⟨img, hi, ?_⟩
  generalize hcd : Z.compress (image_length width height) img = cd at h h3 h4 ⊢
  obtain ⟨b1, e1, l1⟩ := store_ok _ _ _ _ h1
  have hrec : write_records o1 8
      [(CHUNK_TYPE_IHDR, header_bytes width height), (CHUNK_TYPE_IDAT, cd), (CHUNK_TYPE_IEND, [])]
      = .ok o4 := by
    simp only [write_records]
    rw [show (header_bytes width height).length = PNG_HEADER_SIZE from rfl]
    have h2' : write_idat_chunk o1 8 PNG_HEADER_SIZE CHUNK_TYPE_IHDR (header_bytes width height)
        = .ok o2 := h2
    rw [h2']
    simp only [Outcome.bind]
    have h3' : write_idat_chunk o2 (8 + 12 + PNG_HEADER_SIZE) cd.length CHUNK_TYPE_IDAT cd
        = .ok o3 := h3
    rw [h3']
    simp only [Outcome.bind]
    have h4' : write_idat_chunk o3 (8 + 12 + PNG_HEADER_SIZE + 12 + cd.length)
        ([] : List Nat).length CHUNK_TYPE_IEND [] = .ok o4 := h4
    rw [h4']
  obtain ⟨b4, -, -⟩ := write_idat_chunk_ok _ _ _ _ _ _ h4
  obtain ⟨-, -, l3⟩ := write_idat_chunk_ok _ _ _ _ _ _ h3
  obtain ⟨-, -, l2⟩ := write_idat_chunk_ok _ _ _ _ _ _ h2
  simp only [png_magic, PNG_HEADER_SIZE, List.length_cons, List.length_nil] at b4 b1
  have hroom : 57 + cd.length ≤ out.length := by omega
  have ho1 : o1 = png_magic ++ out.drop 8 := by
    rw [e1]
    simp [png_magic]
  have hw := write_records_eq
    [(CHUNK_TYPE_IHDR, header_bytes width height), (CHUNK_TYPE_IDAT, cd), (CHUNK_TYPE_IEND, [])]
    png_magic (out.drop 8)
    (by simp [serialised_length, header_bytes, bytes_of_u32_length]; omega)
  rw [← ho1, show png_magic.length = 8 from rfl, hrec] at hw
  have ho4 := Outcome.ok.inj hw
  have hres := Outcome.ok.inj h
  rw [Prod.mk.injEq] at hres
  obtain ⟨hr1, hr2⟩ := hres
  refine ⟨?_, ?_⟩
  · rw [← hr2, ho4]
    exact layout_eq out cd width height
  · have := to_int_nonneg (png_magic.length + PNG_HEADER_SIZE + 4 * 9 + cd.length)
      (by simp only [png_magic, PNG_HEADER_SIZE, List.length_cons, List.length_nil]; omega)
      (by rw [hr1]; exact hr)
    rw [← hr1, this]
    simp only [png_magic, PNG_HEADER_SIZE, List.length_cons, List.length_nil]
    push_cast
    ring

/-! ## Successful runs -/

theorem error_return {r : Int} {out out1 : List Nat} {k : Int} (hk : k < 0) (hr : 0 ≤ r)
    (h : (Outcome.ok (k, out) : Outcome (Int × List Nat)) = .ok (r, out1)) : False := by
  have := Outcome.ok.inj h
  rw [Prod.mk.injEq] at this
  omega

theorem resume_ok {σ : Type} (Z : Zlib σ) (g : Indeterminate) (out : List Nat)
    (width height : Nat) (idat : List Nat) (r : Int) (out1 : List Nat)
    (h : resume Z g out width height idat = .ok (r, out1)) (hr : 0 ≤ r) :
    ∃ st, decompress Z g width height idat = .ok st ∧ st.status = Z_STREAM_END
      ∧ encode Z out width height st = .ok (r, out1) := by
  unfold resume at h
  obtain ⟨st, hst, h⟩ := bind_ok _ _ _ h
  by_cases hs : st.status ≠ Z_STREAM_END
  · rw [if_pos hs] at h
    exact (error_return (by decide) hr h).elim
  · rw [if_neg hs] at h
    exact ⟨st, hst, not_not.mp hs, h⟩

theorem recover_ok {σ : Type} (Z : Zlib σ) (g : Indeterminate) (inp out : List Nat)
    (width height : Nat) (r : Int) (out1 : List Nat)
    (h : acropalypse_recover Z g inp out width height = .ok (r, out1)) (hr : 0 ≤ r) :
    ∃ idat st, decompress Z g width height idat = .ok st ∧ st.status = Z_STREAM_END
      ∧ encode Z out width height st = .ok (r, out1) := by
  unfold acropalypse_recover at h
  obtain ⟨magic, -, h⟩ := bind_ok _ _ _ h
  by_cases hm : magic ≠ png_magic
  · rw [if_pos hm] at h
    exact (error_return (by decide) hr h).elim
  · rw [if_neg hm] at h
    obtain ⟨e, -, h⟩ := bind_ok _ _ _ h
    obtain ⟨found, -, h⟩ := bind_ok _ _ _ h
    cases found with
    | none => exact (error_return (by decide) hr h).elim
    | some trailer =>
      simp only at h
      obtain ⟨idat0, -, h⟩ := bind_ok _ _ _ h
      by_cases ht : trailer < 0
      · rw [if_pos ht] at h
        cases h
      · rw [if_neg ht] at h
        obtain ⟨agg, -, h⟩ := bind_ok _ _ _ h
        cases agg with
        | none => exact (error_return (by decide) hr h).elim
        | some idat =>
          obtain ⟨st, h1, h2, h3⟩ := resume_ok Z g out width height idat r out1 h hr
          exact ⟨idat, st, h1, h2, h3⟩

/-- C1: on every successful run (a non-negative return value `r`, the output
block lying in a 32-bit address space), the output block holds the 8-byte PNG
signature, a header record with payload (width big-endian, height big-endian,
8, 2, 0, 0, 0), one IDAT record holding the recompressed pixel stream of
length `c`, and an IEND record with empty payload, back-to-back from offset
0, the rest of the block untouched; and `r = 57 + c`. -/
theorem output_layout {σ : Type} (Z : Zlib σ) (g : Indeterminate) (inp out : List Nat)
    (width height : Nat) (r : Int) (out1 : List Nat) (hout : out.length < U32)
    (h : acropalypse_recover Z g inp out width height = .ok (r, out1)) (hr : 0 ≤ r) :
    ∃ (st : TrialState) (img : List Nat),
      repair width height st.decompressed st.total_out = .ok img
      ∧ out1 = png_magic
          ++ record CHUNK_TYPE_IHDR (be32 width ++ be32 height ++ [8, 2, 0, 0, 0])
          ++ record CHUNK_TYPE_IDAT (Z.compress (image_length width height) img)
          ++ record CHUNK_TYPE_IEND []
          ++ out.drop (57 + (Z.compress (image_length width height) img).length)
      ∧ r = 57 + ((Z.compress (image_length width height) img).length : Int) := by
  obtain ⟨idat, st, -, -, he⟩ := recover_ok Z g inp out width height r out1 h hr
  obtain ⟨img, h1, h2, h3⟩ := encode_ok Z out width height st r out1 hout he hr
  exact ⟨st, img, h1, h2, h3⟩

/-! ## The repaired pixel buffer -/

theorem slice_one (d : List Nat) (i : Nat) (h : i < d.length) :
    slice d i 1 = .ok [d.getD i 0] := by
  unfold slice
  rw [if_pos (by omega)]
  congr 1
  rw [List.drop_eq_getElem_cons h, List.take_succ_cons, List.take_zero,
    List.getD_eq_getElem?_getD, List.getElem?_eq_getElem h, Option.getD_some]

theorem store_one (d : List Nat) (i v : Nat) (h : i < d.length) :
    store d i [v] = .ok (d.set i v) := by
  unfold store
  rw [if_pos (by simpa using h)]
  congr 1
  rw [List.set_eq_take_append_cons_drop, if_pos h]
  simp

theorem getD_set (d : List Nat) (i j v : Nat) (h : i < d.length) :
    (d.set i v).getD j 0 = if j = i then v else d.getD j 0 := by
  simp only [List.getD_eq_getElem?_getD, List.getElem?_set]
  by_cases hji : j = i
  · subst hji
    simp [h]
  · rw [if_neg (Ne.symm hji), if_neg hji]

theorem multiples_apart (s i j : Nat) (hi : i % s = 0) (hj : j % s = 0) (hij : i < j) :
    i + s ≤ j := by
  have hd : s ∣ j - i := Nat.dvd_sub' (Nat.dvd_of_mod_eq_zero hj) (Nat.dvd_of_mod_eq_zero hi)
  have := Nat.le_of_dvd (by omega) hd
  omega

theorem fix_filter_bytes_spec (s len : Nat) (hs0 : 0 < s) (hsU : s < U32)
    (hw : len + s ≤ U32 ∨ len ≤ s) :
    ∀ (f i : Nat) (d : List Nat), d.length = len → i % s = 0 → len ≤ i + f * s →
      ∃ d1, fix_filter_bytes s len (f + 1) i d = .ok d1 ∧ d1.length = len
        ∧ ∀ j, d1.getD j 0
            = if i ≤ j ∧ j < len ∧ j % s = 0 ∧ d.getD j 0 = 0x58 then 0 else d.getD j 0 := by
  intro f
  induction f with
  | zero =>
    intro i d hd _ hle
    refine ⟨d, ?_, hd, ?_⟩
    · unfold fix_filter_bytes
      rw [if_neg (by omega)]
    · intro j
      rw [if_neg (by omega)]
  | succ f ih =>
    intro i d hd hi hle
    by_cases hlt : i < len
    · have hnext : (i + s) % U32 = i + s := by
        apply Nat.mod_eq_of_lt
        rcases hw with hw | hw
        · omega
        · have : i = 0 := by
            have := Nat.mod_eq_of_lt (show i < s by omega)
            omega
          omega
      obtain ⟨d1, h1, hl1, hg1⟩ : ∃ d1 : List Nat,
          (if [d.getD i 0] = [0x58] then store d i [0] else Outcome.ok d) = .ok d1
            ∧ d1.length = len
            ∧ ∀ j, d1.getD j 0 = if j = i ∧ d.getD i 0 = 0x58 then 0 else d.getD j 0 := by
        by_cases hx : d.getD i 0 = 0x58
        · refine ⟨d.set i 0, ?_, by simpa using hd, ?_⟩
          · rw [if_pos (by rw [hx]), store_one d i 0 (by omega)]
          · intro j
            rw [getD_set d i j 0 (by omega)]
            by_cases hji : j = i
            · rw [if_pos hji, if_pos ⟨hji, hx⟩]
            · rw [if_neg hji, if_neg (by tauto)]
        · refine ⟨d, ?_, hd, ?_⟩
          · rw [if_neg (by simpa using hx)]
          · intro j
            rw [if_neg (by tauto)]
      obtain ⟨d2, h2, hl2, hg2⟩ := ih (i + s) d1 hl1
        (by rw [Nat.add_mod, hi, Nat.mod_self]; simp)
        (by rw [Nat.succ_mul] at hle; omega)
      refine ⟨d2, ?_, hl2, ?_⟩
      · rw [fix_filter_bytes, if_pos hlt, slice_one d i (by omega)]
        simp only [Outcome.bind]
        rw [h1]
        simp only [Outcome.bind]
        rw [hnext, h2]
      · intro j
        rw [hg2 j]
        by_cases hji : j = i
        · subst hji
          have hn : ¬ (j + s ≤ j ∧ j < len ∧ j % s = 0 ∧ d1.getD j 0 = 0x58) :=
            fun h => by omega
          rw [if_neg hn, hg1 j]
          by_cases hx : d.getD j 0 = 0x58
          · rw [if_pos ⟨rfl, hx⟩, if_pos ⟨le_refl _, hlt, hi, hx⟩]
          · rw [if_neg (fun h => hx h.2), if_neg (fun h => hx h.2.2.2)]
        · have e : d1.getD j 0 = d.getD j 0 := by rw [hg1 j, if_neg (fun h => hji h.1)]
          rw [e]
          by_cases hc : i ≤ j ∧ j < len ∧ j % s = 0 ∧ d.getD j 0 = 0x58
          · obtain ⟨c1, c2, c3, c4⟩ := hc
            have := multiples_apart s i j hi c3 (by omega)
            rw [if_pos ⟨this, c2, c3, c4⟩, if_pos ⟨c1, c2, c3, c4⟩]
          · rw [if_neg hc, if_neg (fun h => hc ⟨by omega, h.2.1, h.2.2.1, h.2.2.2⟩)]
    · refine ⟨d, ?_, hd, ?_⟩
      · unfold fix_filter_bytes
        rw [if_neg hlt]
      · intro j
        rw [if_neg (by omega)]

theorem image_length_stride (width height : Nat) :
    image_length width height = (stride width * height) % U32 := rfl

theorem image_length_lt (width height : Nat) : image_length width height < U32 :=
  Nat.mod_lt _ (by decide)

theorem stride_lt (width : Nat) : stride width < U32 := Nat.mod_lt _ (by decide)

theorem placed_getD (len t j : Nat) (dec : List Nat) (ht : t ≤ len) (hd : t ≤ dec.length)
    (hj : j < len) :
    ((List.replicate len 0).take (len - t) ++ (dec.drop 0).take t
        ++ (List.replicate len 0).drop (len - t + ((dec.drop 0).take t).length)).getD j 0
      = if j < len - t then 0 else dec.getD (j - (len - t)) 0 := by
  have hl : ((dec.drop 0).take t).length = t := by simp; omega
  simp only [List.getD_eq_getElem?_getD]
  by_cases h1 : j < len - t
  · rw [if_pos h1, List.append_assoc, List.getElem?_append_left (by simp; omega),
      List.getElem?_take, if_pos h1, List.getElem?_replicate, if_pos (by omega)]
    rfl
  · rw [if_neg h1, List.append_assoc, List.getElem?_append_right (by simp; omega),
      List.getElem?_append_left (by simp; omega)]
    simp only [List.length_take, List.length_replicate, List.drop_zero]
    rw [List.getElem?_take, if_pos (by omega), show min (len - t) len = len - t by omega]

theorem repair_spec (width height : Nat) (dec : List Nat) (total t : Nat) (img : List Nat)
    (htot : total = ZLIB_DICT_LENGTH + t) (htU : total < U32)
    (ht : t ≤ image_length width height) (hmem : 2 * image_length width height ≤ U32)
    (hrep : repair width height dec total = .ok img) :
    img.length = image_length width height
      ∧ ∀ j, j < image_length width height →
          img.getD j 0
            = if j < image_length width height - t then 0
              else if j % stride width = 0
                  ∧ dec.getD (j - (image_length width height - t)) 0 = 0x58 then 0
              else dec.getD (j - (image_length width height - t)) 0 := by
  have hlU := image_length_lt width height
  have hls := image_length_stride width height
  have hsU := stride_lt width
  unfold repair at hrep
  simp only [] at hrep
  generalize image_length width height = len at *
  generalize stride width = s at *
  have hn : (total + (U32 - ZLIB_DICT_LENGTH)) % U32 = t := by
    simp only [ZLIB_DICT_LENGTH, U32] at *
    omega
  have hdst : (len + (U32 - total % U32) + ZLIB_DICT_LENGTH) % U32 = len - t := by
    simp only [ZLIB_DICT_LENGTH, U32] at *
    omega
  rw [hn, hdst] at hrep
  obtain ⟨bytes, hb, hrep1⟩ := bind_ok _ _ _ hrep
  obtain ⟨d0, h0, hrep2⟩ := bind_ok _ _ _ hrep1
  obtain ⟨hbb, hbe⟩ := slice_ok _ _ _ _ hb
  obtain ⟨-, h0e, h0l⟩ := store_ok _ _ _ _ h0
  rw [List.length_replicate] at h0l
  rw [hbe] at h0e
  by_cases hz : len = 0
  · unfold fix_filter_bytes at hrep2
    rw [if_neg (by omega)] at hrep2
    have := Outcome.ok.inj hrep2
    rw [← this]
    exact ⟨h0l, fun j hj => absurd hj (by omega)⟩
  · have hs0 : 0 < s := by
      rcases Nat.eq_zero_or_pos s with h | h
      · rw [h, Nat.zero_mul, Nat.zero_mod] at hls
        exact absurd hls hz
      · exact h
    have hU : 2 * len ≤ U32 := hmem
    obtain ⟨d1, h1, hl1, hg1⟩ := fix_filter_bytes_spec s len hs0 hsU (by omega) height 0 d0 h0l
      (Nat.zero_mod s) (by
        rw [hls, Nat.zero_add, Nat.mul_comm]
        exact Nat.mod_le _ _)
    rw [h1] at hrep2
    have := Outcome.ok.inj hrep2
    rw [← this]
    refine ⟨hl1, fun j hj => ?_⟩
    rw [hg1 j]
    have hp := placed_getD len t j dec ht (by omega) hj
    rw [← h0e] at hp
    rw [hp]
    by_cases hjt : j < len - t
    · simp only [hjt, if_true, ite_self]
    · simp only [hjt, if_false]
      by_cases hc : j % s = 0 ∧ dec.getD (j - (len - t)) 0 = 88
      · rw [if_pos ⟨Nat.zero_le _, hj, hc.1, hc.2⟩, if_pos hc]
      · rw [if_neg (fun h => hc ⟨h.2.2.1, h.2.2.2⟩), if_neg hc]

theorem trial_loop_total_lt {σ : Type} (Z : Zlib σ) (z : ZStream σ) (idat : List Nat) :
    ∀ (n : Nat) (st0 st : TrialState), st0.total_out < U32 →
      trial_loop Z z idat n st0 = .ok st → st.total_out < U32 := by
  intro n
  induction n with
  | zero =>
    intro st0 st h0 h
    have := Outcome.ok.inj h
    rw [← this]
    exact h0
  | succ n ih =>
    intro st0 st h0 h
    unfold trial_loop at h
    simp only [] at h
    split at h
    · exact ih st0 st h0 h
    · obtain ⟨d, -, h⟩ := bind_ok _ _ _ h
      split at h
      · have := Outcome.ok.inj h
        rw [← this]
        exact Nat.mod_lt _ (by decide)
      · exact ih _ st (Nat.mod_lt _ (by decide)) h

theorem decompress_total_lt {σ : Type} (Z : Zlib σ) (g : Indeterminate) (width height : Nat)
    (idat : List Nat) (st : TrialState) (hg : g.total_out < U32)
    (h : decompress Z g width height idat = .ok st) : st.total_out < U32 := by
  unfold decompress at h
  obtain ⟨d, -, h⟩ := bind_ok _ _ _ h
  exact trial_loop_total_lt Z _ idat _ _ st hg h

/-- C8: on every successful run (non-negative return value; the output block
and the two `image_length`-byte blocks `decompressed` and `image_data` lying
in a 32-bit address space), with `t = zz.total_out - 32768` and `t ≤
image_length`, the pixel buffer that is recompressed into the IDAT record has
length `image_length`, is 0 at every `j < image_length - t`, and elsewhere
equals `decompressed[j - (image_length - t)]`, except that it is 0 where `j`
is a multiple of the stride and that byte is `'X'`. -/
theorem repaired_pixels {σ : Type} (Z : Zlib σ) (g : Indeterminate) (inp out : List Nat)
    (width height : Nat) (r : Int) (out1 : List Nat) (hout : out.length < U32)
    (hg : g.total_out < U32) (hmem : 2 * image_length width height ≤ U32)
    (h : acropalypse_recover Z g inp out width height = .ok (r, out1)) (hr : 0 ≤ r) :
    ∃ (idat : List Nat) (st : TrialState) (img : List Nat),
      decompress Z g width height idat = .ok st ∧ st.status = Z_STREAM_END
      ∧ repair width height st.decompressed st.total_out = .ok img
      ∧ out1 = png_magic
          ++ record CHUNK_TYPE_IHDR (be32 width ++ be32 height ++ [8, 2, 0, 0, 0])
          ++ record CHUNK_TYPE_IDAT (Z.compress (image_length width height) img)
          ++ record CHUNK_TYPE_IEND []
          ++ out.drop (57 + (Z.compress (image_length width height) img).length)
      ∧ ∀ t, st.total_out = ZLIB_DICT_LENGTH + t → t ≤ image_length width height →
          img.length = image_length width height
          ∧ ∀ j, j < image_length width height →
              img.getD j 0
                = if j < image_length width height - t then 0
                  else if j % stride width = 0
                      ∧ st.decompressed.getD (j - (image_length width height - t)) 0 = 0x58
                    then 0
                  else st.decompressed.getD (j - (image_length width height - t)) 0 := by
  obtain ⟨idat, st, hd, hs, he⟩ := recover_ok Z g inp out width height r out1 h hr
  obtain ⟨img, h1, h2, -⟩ := encode_ok Z out width height st r out1 hout he hr
  refine ⟨idat, st, img, hd, hs, h1, h2, fun t ht htl => ?_⟩
  exact repair_spec width height st.decompressed st.total_out t img ht
    (decompress_total_lt Z g width height idat st hg hd) htl hmem h1

/-! ## A complete run -/

theorem leak_front {σ : Type} (Z : Zlib σ) (g : Indeterminate) (out : List Nat)
    (width height : Nat) :
    acropalypse_recover Z g input_leak out width height
      = resume Z g out width height [0x0c, 0x58, 1, 2, 3] := by
  rfl

theorem leak_view : shifted [0x0c, 0x58, 1, 2, 3] 0 = [0x0c, 0x58, 1, 2, 3] := by
  decide!

theorem repair_defined (width height : Nat) (dec : List Nat) (total t : Nat)
    (htot : total = ZLIB_DICT_LENGTH + t) (htU : total < U32)
    (ht : t ≤ image_length width height) (hmem : 2 * image_length width height ≤ U32)
    (hdec : t ≤ dec.length) :
    ∃ img, repair width height dec total = .ok img := by
  have hlU := image_length_lt width height
  have hls := image_length_stride width height
  have hsU := stride_lt width
  unfold repair
  simp only []
  generalize image_length width height = len at *
  generalize stride width = s at *
  have hn : (total + (U32 - ZLIB_DICT_LENGTH)) % U32 = t := by
    simp only [ZLIB_DICT_LENGTH, U32] at *
    omega
  have hdst : (len + (U32 - total % U32) + ZLIB_DICT_LENGTH) % U32 = len - t := by
    simp only [ZLIB_DICT_LENGTH, U32] at *
    omega
  rw [hn, hdst, slice_zero_take dec t hdec]
  simp only [Outcome.bind]
  have hst : store (List.replicate len 0) (len - t) (dec.take t)
      = .ok ((List.replicate len 0).take (len - t) ++ dec.take t
          ++ (List.replicate len 0).drop (len - t + (dec.take t).length)) := by
    unfold store
    rw [if_pos (by simp only [List.length_take, List.length_replicate]; omega)]
  rw [hst]
  simp only [Outcome.bind]
  have hl0 : ((List.replicate len 0).take (len - t) ++ dec.take t
      ++ (List.replicate len 0).drop (len - t + (dec.take t).length)).length = len := by
    simp only [List.length_append, List.length_take, List.length_drop, List.length_replicate]
    omega
  by_cases hz : len = 0
  · unfold fix_filter_bytes
    rw [if_neg (by omega)]
    exact ⟨_, rfl⟩
  · have hs0 : 0 < s := by
      rcases Nat.eq_zero_or_pos s with h | h
      · rw [h, Nat.zero_mul, Nat.zero_mod] at hls
        exact absurd hls hz
      · exact h
    have hU : 2 * len ≤ U32 := hmem
    obtain ⟨d1, h1, -, -⟩ := fix_filter_bytes_spec s len hs0 hsU (by omega) height 0 _ hl0
      (Nat.zero_mod s) (by
        rw [hls, Nat.zero_add, Nat.mul_comm]
        exact Nat.mod_le _ _)
    exact ⟨d1, h1⟩

theorem encode_run {σ : Type} (Z : Zlib σ) (out : List Nat) (width height : Nat)
    (st : TrialState) (img : List Nat)
    (hrep : repair width height st.decompressed st.total_out = .ok img)
    (hroom : 57 + (Z.compress (image_length width height) img).length ≤ out.length)
    (hint : 57 + (Z.compress (image_length width height) img).length < 2147483648) :
    encode Z out width height st
      = .ok (57 + ((Z.compress (image_length width height) img).length : Int),
          png_magic
            ++ record CHUNK_TYPE_IHDR (be32 width ++ be32 height ++ [8, 2, 0, 0, 0])
            ++ record CHUNK_TYPE_IDAT (Z.compress (image_length width height) img)
            ++ record CHUNK_TYPE_IEND []
            ++ out.drop (57 + (Z.compress (image_length width height) img).length)) := by
  generalize hcd : Z.compress (image_length width height) img = cd at hroom hint ⊢
  have hw := write_records_eq
    [(CHUNK_TYPE_IHDR, header_bytes width height), (CHUNK_TYPE_IDAT, cd), (CHUNK_TYPE_IEND, [])]
    png_magic (out.drop 8)
    (by simp only [serialised_length, header_bytes_length, List.length_nil, List.length_drop]
        omega)
  rw [layout_eq] at hw
  have h1 : store out 0 png_magic = .ok (png_magic ++ out.drop 8) := by
    unfold store
    rw [if_pos (by simp only [png_magic, List.length_cons, List.length_nil]; omega)]
    simp [png_magic]
  have hpm : png_magic.length = 8 := rfl
  simp only [write_records, header_bytes_length, List.length_nil, hpm, Nat.reduceAdd] at hw
  obtain ⟨o2, h2, hw⟩ := bind_ok _ _ _ hw
  obtain ⟨o3, h3, hw⟩ := bind_ok _ _ _ hw
  obtain ⟨o4, h4, hw⟩ := bind_ok _ _ _ hw
  have ho4 := Outcome.ok.inj hw
  have hti : to_int (8 + 13 + 36 + cd.length) = 57 + (cd.length : Int) := by
    unfold to_int
    simp only [U32]
    rw [Nat.mod_eq_of_lt (by omega), if_pos (by omega)]
    push_cast
    ring
  unfold encode
  simp only [hpm, PNG_HEADER_SIZE, Nat.reduceAdd, Nat.reduceMul]
  rw [h1, ok_bind, h2, ok_bind, hrep, ok_bind]
  rw [hcd, h3, ok_bind, h4, ok_bind, ho4]
  simp only [Nat.reduceAdd] at hti
  rw [hti]

theorem trial_loop_accept {σ : Type} (Z : Zlib σ) (z : ZStream σ) (idat : List Nat) (n : Nat)
    (st : TrialState) (zz : ZStream σ) (written : List Nat)
    (hc : (shifted idat ((idat.length - (n + 1)) % 8)).getD ((idat.length - (n + 1)) / 8) 0 % 8
      = 4)
    (hr : inflate_call Z z ((shifted idat ((idat.length - (n + 1)) % 8)).drop
      ((idat.length - (n + 1)) / 8)) idat.length = (zz, Z_STREAM_END, written))
    (hfit : written.length ≤ st.decompressed.length) :
    trial_loop Z z idat (n + 1) st
      = .ok { status := Z_STREAM_END, total_out := zz.total_out,
              decompressed := written ++ st.decompressed.drop written.length } := by
  rw [trial_loop]
  simp only []
  rw [if_neg (by rw [hc]; simp), hr]
  simp only []
  have hs : store st.decompressed 0 written
      = .ok (written ++ st.decompressed.drop written.length) := by
    unfold store
    rw [if_pos (by omega)]
    simp
  rw [hs, ok_bind]
  simp

theorem toy_inflate_prime (n k : Nat) (x : List Nat) (hn : ZLIB_DICT_LENGTH ≤ n) :
    toyZlib.inflate false x k n = (true, -5, List.replicate ZLIB_DICT_LENGTH 0x58) := by
  simp only [toyZlib, Bool.false_eq_true, if_false, Nat.min_eq_right hn]

theorem toy_prime (n k : Nat) (x : List Nat) (hn : ZLIB_DICT_LENGTH ≤ n) :
    inflate_call toyZlib { state := toyZlib.init, avail_out := n, total_out := 0 } x k
      = ({ state := true, avail_out := n - ZLIB_DICT_LENGTH, total_out := ZLIB_DICT_LENGTH }, -5,
          List.replicate ZLIB_DICT_LENGTH 0x58) := by
  unfold inflate_call
  rw [show toyZlib.init = false from rfl]
  simp only []
  rw [toy_inflate_prime n k x hn]
  simp only [List.length_replicate, Nat.zero_add]
  rw [Nat.mod_eq_of_lt (by decide)]

theorem toy_inflate_trial (a b c d k n : Nat) (tl : List Nat) (hn : 4 ≤ n) :
    toyZlib.inflate true (0x0c :: a :: b :: c :: d :: tl) k n = (true, 1, [a, b, c, d]) := by
  simp only [toyZlib, if_true, if_pos hn]

theorem toy_trial (a b c d k n t : Nat) (tl : List Nat) (hn : 4 ≤ n) (ht : t + 4 < U32) :
    inflate_call toyZlib { state := true, avail_out := n, total_out := t }
        (0x0c :: a :: b :: c :: d :: tl) k
      = ({ state := true, avail_out := n - 4, total_out := t + 4 }, Z_STREAM_END,
          [a, b, c, d]) := by
  unfold inflate_call
  simp only []
  rw [toy_inflate_trial a b c d k n tl hn]
  simp only [List.length_cons, List.length_nil, Nat.zero_add, Nat.reduceAdd]
  rw [Nat.mod_eq_of_lt ht]
  rfl

theorem leak_window :
    (shifted [0x0c, 0x58, 1, 2, 3] ((([0x0c, 0x58, 1, 2, 3] : List Nat).length - (4 + 1)) % 8)).drop
        ((([0x0c, 0x58, 1, 2, 3] : List Nat).length - (4 + 1)) / 8)
      = [0x0c, 0x58, 1, 2, 3] := by
  decide!

theorem leak_candidate :
    (shifted [0x0c, 0x58, 1, 2, 3] ((([0x0c, 0x58, 1, 2, 3] : List Nat).length - (4 + 1)) % 8)).getD
        ((([0x0c, 0x58, 1, 2, 3] : List Nat).length - (4 + 1)) / 8) 0 % 8 = 4 := by
  decide!

theorem toy_decompress (g : Indeterminate) (width height : Nat)
    (hlen : image_length width height = ZLIB_DICT_LENGTH + 4) :
    ∃ rest : List Nat,
      decompress toyZlib g width height [0x0c, 0x58, 1, 2, 3]
        = .ok { status := Z_STREAM_END, total_out := ZLIB_DICT_LENGTH + 4,
                decompressed := [0x58, 1, 2, 3] ++ rest } := by
  unfold decompress
  simp only []
  rw [toy_prime _ _ _ (by omega)]
  simp only []
  have hs : store ((List.range (image_length width height)).map g.heap) 0
      (List.replicate ZLIB_DICT_LENGTH 0x58)
      = .ok (List.replicate ZLIB_DICT_LENGTH 0x58
          ++ ((List.range (image_length width height)).map g.heap).drop ZLIB_DICT_LENGTH) := by
    unfold store
    rw [if_pos (by
      simp only [List.length_replicate, List.length_map, List.length_range]
      omega)]
    simp only [List.take_zero, List.nil_append, List.length_replicate, Nat.zero_add]
  rw [hs, ok_bind, show ([0x0c, 0x58, 1, 2, 3] : List Nat).length = 4 + 1 from rfl]
  have hr : inflate_call toyZlib
      { state := true, avail_out := image_length width height - ZLIB_DICT_LENGTH,
        total_out := ZLIB_DICT_LENGTH }
      ((shifted [0x0c, 0x58, 1, 2, 3] ((([0x0c, 0x58, 1, 2, 3] : List Nat).length - (4 + 1)) % 8)).drop
        ((([0x0c, 0x58, 1, 2, 3] : List Nat).length - (4 + 1)) / 8))
      ([0x0c, 0x58, 1, 2, 3] : List Nat).length
      = ({ state := true, avail_out := image_length width height - ZLIB_DICT_LENGTH - 4,
           total_out := ZLIB_DICT_LENGTH + 4 }, Z_STREAM_END, [0x58, 1, 2, 3]) := by
    rw [leak_window]
    exact toy_trial 0x58 1 2 3 _ _ _ [] (by omega) (by decide)
  rw [trial_loop_accept toyZlib _ _ 4 _ _ _ leak_candidate hr (by
    simp only [List.length_append, List.length_replicate, List.length_cons, List.length_nil,
      ZLIB_DICT_LENGTH]
    omega)]
  exact ⟨_, rfl⟩

theorem drop_four (l : List Nat) (m : Nat) (h : l.length = m + 4) :
    l.drop m = [l.getD m 0, l.getD (m + 1) 0, l.getD (m + 2) 0, l.getD (m + 3) 0] := by
  have g : ∀ i, i < l.length → l.getD i 0 = l[i]?.getD 0 := fun i _ =>
    List.getD_eq_getElem?_getD l i 0
  rw [List.drop_eq_getElem_cons (by omega), List.drop_eq_getElem_cons (by omega),
    List.drop_eq_getElem_cons (by omega), List.drop_eq_getElem_cons (by omega),
    List.drop_of_length_le (by omega)]
  simp only [List.getD_eq_getElem?_getD]
  rw [List.getElem?_eq_getElem (by omega), List.getElem?_eq_getElem (by omega),
    List.getElem?_eq_getElem (by omega), List.getElem?_eq_getElem (by omega)]
  rfl

theorem toy_repair (width height a b c d : Nat) (rest : List Nat)
    (hlen : image_length width height = ZLIB_DICT_LENGTH + 4) (hs : stride width = 4) :
    ∃ img, repair width height ([a, b, c, d] ++ rest) (ZLIB_DICT_LENGTH + 4) = .ok img
      ∧ img.length = image_length width height
      ∧ img.drop (img.length - 4) = [if a = 0x58 then 0 else a, b, c, d] := by
  have hmem : 2 * image_length width height ≤ U32 := by
    rw [hlen]
    decide
  have hU : ZLIB_DICT_LENGTH + 4 < U32 := by decide
  have ht : 4 ≤ image_length width height := by omega
  obtain ⟨img, hi⟩ := repair_defined width height ([a, b, c, d] ++ rest)
    (ZLIB_DICT_LENGTH + 4) 4 rfl hU ht hmem (by simp)
  obtain ⟨hl, hg⟩ := repair_spec width height ([a, b, c, d] ++ rest)
    (ZLIB_DICT_LENGTH + 4) 4 img rfl hU ht hmem hi
  refine ⟨img, hi, hl, ?_⟩
  rw [drop_four img (img.length - 4) (by omega), hl, hlen]
  simp only [ZLIB_DICT_LENGTH, Nat.reduceAdd, Nat.reduceSub] at hlen ⊢
  rw [hg 32768 (by omega), hg 32769 (by omega), hg 32770 (by omega), hg 32771 (by omega)]
  rw [hlen, hs]
  simp

theorem toy_compress (n a b c d : Nat) (img : List Nat) (hn : 6 ≤ n)
    (hd : img.drop (img.length - 4) = [a, b, c, d]) :
    toyZlib.compress n img = [0x78, 0x9c, a, b, c, d] := by
  have ht : ([0x78, 0x9c, a, b, c, d] : List Nat).take n = [0x78, 0x9c, a, b, c, d] :=
    List.take_of_length_le (by simpa using hn)
  simp only [toyZlib, hd, ht]

theorem toy_resume (g : Indeterminate) (out : List Nat) (width height a b c d : Nat)
    (idat rest : List Nat)
    (hlen : image_length width height = ZLIB_DICT_LENGTH + 4) (hs : stride width = 4)
    (hroom : 63 ≤ out.length)
    (hd : decompress toyZlib g width height idat
      = .ok { status := Z_STREAM_END, total_out := ZLIB_DICT_LENGTH + 4,
              decompressed := [a, b, c, d] ++ rest }) :
    resume toyZlib g out width height idat
      = .ok (63, png_magic
          ++ record CHUNK_TYPE_IHDR (be32 width ++ be32 height ++ [8, 2, 0, 0, 0])
          ++ record CHUNK_TYPE_IDAT [0x78, 0x9c, if a = 0x58 then 0 else a, b, c, d]
          ++ record CHUNK_TYPE_IEND []
          ++ out.drop 63) := by
  obtain ⟨img, hi, hl, hdrop⟩ := toy_repair width height a b c d rest hlen hs
  have hc := toy_compress (image_length width height) _ b c d img (by rw [hlen]; decide) hdrop
  have he := encode_run toyZlib out width height
    { status := Z_STREAM_END, total_out := ZLIB_DICT_LENGTH + 4,
      decompressed := [a, b, c, d] ++ rest } img hi
    (by rw [hc]; exact hroom)
    (by rw [hc]; simp only [List.length_cons, List.length_nil]; omega)
  rw [hc] at he
  unfold resume
  rw [hd, ok_bind, if_neg (not_not.mpr rfl), he]
  rfl

/-- The run on `input_leak` with the stand-in zlib, width 1 and height 8193
(image length 32772): the trial at position 0 is accepted, the recovered
tail is `58 01 02 03`, the `'X'` at the scanline start 32768 is cleared, and
the function returns 63. -/
theorem leak_run (out : List Nat) (hroom : 63 ≤ out.length) :
    acropalypse_recover toyZlib (junk 0 0) input_leak out 1 8193
      = .ok (63, png_magic
          ++ record CHUNK_TYPE_IHDR (be32 1 ++ be32 8193 ++ [8, 2, 0, 0, 0])
          ++ record CHUNK_TYPE_IDAT [0x78, 0x9c, 0, 1, 2, 3]
          ++ record CHUNK_TYPE_IEND []
          ++ out.drop 63) := by
  obtain ⟨rest, hd⟩ := toy_decompress (junk 0 0) 1 8193 (by decide)
  rw [leak_front]
  exact toy_resume (junk 0 0) out 1 8193 0x58 1 2 3 _ rest (by decide) (by decide) hroom hd

theorem output_layout_witness :
    (List.replicate 70 0).length < U32
      ∧ acropalypse_recover toyZlib (junk 0 0) input_leak (List.replicate 70 0) 1 8193
        = .ok (63, png_magic
            ++ record CHUNK_TYPE_IHDR (be32 1 ++ be32 8193 ++ [8, 2, 0, 0, 0])
            ++ record CHUNK_TYPE_IDAT [0x78, 0x9c, 0, 1, 2, 3]
            ++ record CHUNK_TYPE_IEND []
            ++ (List.replicate 70 0).drop 63)
      ∧ (0 : Int) ≤ 63
      ∧ ∃ (st : TrialState) (img : List Nat),
          repair 1 8193 st.decompressed st.total_out = .ok img
          ∧ png_magic
              ++ record CHUNK_TYPE_IHDR (be32 1 ++ be32 8193 ++ [8, 2, 0, 0, 0])
              ++ record CHUNK_TYPE_IDAT [0x78, 0x9c, 0, 1, 2, 3]
              ++ record CHUNK_TYPE_IEND []
              ++ (List.replicate 70 0).drop 63
            = png_magic
              ++ record CHUNK_TYPE_IHDR (be32 1 ++ be32 8193 ++ [8, 2, 0, 0, 0])
              ++ record CHUNK_TYPE_IDAT (toyZlib.compress (image_length 1 8193) img)
              ++ record CHUNK_TYPE_IEND []
              ++ (List.replicate 70 0).drop
                  (57 + (toyZlib.compress (image_length 1 8193) img).length)
          ∧ (63 : Int) = 57 + ((toyZlib.compress (image_length 1 8193) img).length : Int) :=
  ⟨by decide, leak_run _ (by decide), by decide,
    output_layout toyZlib (junk 0 0) input_leak (List.replicate 70 0) 1 8193 63 _ (by decide)
      (leak_run _ (by decide)) (by decide)⟩

theorem repaired_pixels_witness :
    (List.replicate 70 0).length < U32 ∧ (junk 0 0).total_out < U32
      ∧ 2 * image_length 1 8193 ≤ U32
      ∧ acropalypse_recover toyZlib (junk 0 0) input_leak (List.replicate 70 0) 1 8193
        = .ok (63, png_magic
            ++ record CHUNK_TYPE_IHDR (be32 1 ++ be32 8193 ++ [8, 2, 0, 0, 0])
            ++ record CHUNK_TYPE_IDAT [0x78, 0x9c, 0, 1, 2, 3]
            ++ record CHUNK_TYPE_IEND []
            ++ (List.replicate 70 0).drop 63)
      ∧ (0 : Int) ≤ 63
      ∧ ∃ (idat : List Nat) (st : TrialState) (img : List Nat),
          decompress toyZlib (junk 0 0) 1 8193 idat = .ok st ∧ st.status = Z_STREAM_END
          ∧ repair 1 8193 st.decompressed st.total_out = .ok img
          ∧ png_magic
              ++ record CHUNK_TYPE_IHDR (be32 1 ++ be32 8193 ++ [8, 2, 0, 0, 0])
              ++ record CHUNK_TYPE_IDAT [0x78, 0x9c, 0, 1, 2, 3]
              ++ record CHUNK_TYPE_IEND []
              ++ (List.replicate 70 0).drop 63
            = png_magic
              ++ record CHUNK_TYPE_IHDR (be32 1 ++ be32 8193 ++ [8, 2, 0, 0, 0])
              ++ record CHUNK_TYPE_IDAT (toyZlib.compress (image_length 1 8193) img)
              ++ record CHUNK_TYPE_IEND []
              ++ (List.replicate 70 0).drop
                  (57 + (toyZlib.compress (image_length 1 8193) img).length)
          ∧ ∀ t, st.total_out = ZLIB_DICT_LENGTH + t → t ≤ image_length 1 8193 →
              img.length = image_length 1 8193
              ∧ ∀ j, j < image_length 1 8193 →
                  img.getD j 0
                    = if j < image_length 1 8193 - t then 0
                      else if j % stride 1 = 0
                          ∧ st.decompressed.getD (j - (image_length 1 8193 - t)) 0 = 0x58
                        then 0
                      else st.decompressed.getD (j - (image_length 1 8193 - t)) 0 :=
  ⟨by decide, by decide, by decide, leak_run _ (by decide), by decide,
    repaired_pixels toyZlib (junk 0 0) input_leak (List.replicate 70 0) 1 8193 63 _ (by decide)
      (by decide) (by decide) (leak_run _ (by decide)) (by decide)⟩

/-! ## The leading fragment -/

theorem distance_eq (e t : Nat) (h : e + 16 ≤ t) (ht : t - e - 16 < U32) :
    distance e (t : Int) = t - e - 16 := by
  unfold distance
  have h1 : ((t : Int) - (e : Int) - 4 * 4) = ((t - e - 16 : Nat) : Int) := by omega
  rw [h1, ← Int.natCast_mod, Int.toNat_natCast]
  exact Nat.mod_eq_of_lt ht

/-- C17, as stated, fails: the IEND record ends at 20, the tag is found at 44 and
the cursor is rewound to 40; the leading fragment is the 4 bytes at offsets 32
to 35, of length `(40 - 20) - 16`, not `(40 - 20) - 12 = 8`. -/
theorem fragment_shorter_than_claimed :
    find_iend input_fragment (input_fragment.length + 1) 8 = .ok 20
      ∧ seek_idat_chunk input_fragment (input_fragment.length + 1) 20 input_fragment.length
          = .ok (some 40)
      ∧ leading_fragment input_fragment 20 40 = .ok [0xa1, 0xa2, 0xa3, 0xa4]
      ∧ ([0xa1, 0xa2, 0xa3, 0xa4] : List Nat).length ≠ (40 - 20) - 12 :=
  ⟨rfl, rfl, rfl, by decide⟩

theorem leading_fragment_eq (inp : List Nat) (e t : Nat) (hlen : inp.length < U32)
    (hgap : e + 16 ≤ t) (hin : t ≤ inp.length + 4) :
    leading_fragment inp e (t : Int) = .ok ((inp.drop (e + 12)).take (t - e - 16))
      ∧ ((inp.drop (e + 12)).take (t - e - 16)).length = (t - e) - 16 := by
  unfold leading_fragment
  rw [distance_eq e t hgap (by omega)]
  unfold slice
  rw [if_pos (by omega)]
  refine ⟨rfl, ?_⟩
  simp only [List.length_take, List.length_drop]
  omega

/-- C17, amended: with `e` the offset just after the terminal marker and `t` the
rewound cursor, `e + 16 ≤ t` and `t - 4` inside the input, the leading
fragment is the input bytes from `e + 12` up to `t - 4` (the first 12 bytes
after `e` and the last 4 bytes before `t` are left out): it has length
`(t - e) - 16`. -/
theorem fragment_length (inp : List Nat) (e t : Nat) (hlen : inp.length < U32)
    (hgap : e + 16 ≤ t) (hin : t ≤ inp.length + 4) :
    leading_fragment inp e (t : Int) = .ok ((inp.drop (e + 12)).take (t - e - 16))
      ∧ ((inp.drop (e + 12)).take (t - e - 16)).length = (t - e) - 16 :=
  leading_fragment_eq inp e t hlen hgap hin

theorem fragment_length_witness :
    input_fragment.length < U32 ∧ 20 + 16 ≤ 40 ∧ 40 ≤ input_fragment.length + 4
      ∧ leading_fragment input_fragment 20 ((40 : Nat) : Int)
          = .ok ((input_fragment.drop (20 + 12)).take (40 - 20 - 16))
      ∧ ((input_fragment.drop (20 + 12)).take (40 - 20 - 16)).length = (40 - 20) - 16 :=
  ⟨by decide, by decide, by decide,
    fragment_length input_fragment 20 40 (by decide) (by decide) (by decide)⟩

/-! ## The residual buffer -/

theorem aggregate_result (inp : List Nat) :
    ∀ (fuel c : Nat) (idat0 idat : List Nat),
      aggregate inp fuel c idat0 = .ok (some idat) →
      ∃ chs : List Chunk, Walked inp c chs
        ∧ (∀ ch ∈ chs, ch.chunk_data + ch.chunk_length ≤ inp.length)
        ∧ idat = idat0 ++ (chs.map (payload inp)).flatten
        ∧ idat.length = idat0.length + (chs.map (fun ch => ch.chunk_length)).sum := by
  intro fuel
  induction fuel with
  | zero =>
    intro c idat0 idat h
    cases h
  | succ fuel ih =>
    intro c idat0 idat h
    unfold aggregate at h
    obtain ⟨ch, hp, h⟩ := bind_ok _ _ _ h
    by_cases h1 : ch.chunk_type = CHUNK_TYPE_IDAT
    · rw [if_pos h1] at h
      obtain ⟨pl, hs, h⟩ := bind_ok _ _ _ h
      obtain ⟨hb, hpl⟩ := slice_ok _ _ _ _ hs
      by_cases h2 : idat0.length + ch.chunk_length ≤ inp.length
      · rw [if_pos h2] at h
        obtain ⟨chs, hw, hin, he, hl⟩ := ih ch.next (idat0 ++ pl) idat h
        refine ⟨ch :: chs, .step c ch chs hp h1 hw, ?_, ?_, ?_⟩
        · intro x hx
          rcases List.mem_cons.mp hx with rfl | hx
          · exact hb
          · exact hin x hx
        · rw [he, hpl]
          simp only [List.map_cons, List.flatten_cons, payload, List.append_assoc]
        · rw [hl, hpl]
          simp only [List.length_append, List.length_take, List.length_drop, List.map_cons,
            List.sum_cons]
          omega
      · rw [if_neg h2] at h
        cases h
    · rw [if_neg h1] at h
      by_cases h2 : ch.chunk_type = CHUNK_TYPE_IEND
      · rw [if_pos h2] at h
        have := Outcome.ok.inj h
        rw [Option.some.injEq] at this
        subst this
        exact ⟨[], .stop c ch hp h1 h2, fun _ hx => absurd hx (List.not_mem_nil _),
          by simp, by simp⟩
      · rw [if_neg h2] at h
        cases h

/-- C16: whenever the aggregation loop succeeds, the residual buffer it leaves is
the leading fragment followed by the payloads, in file order, of exactly the
IDAT records walked from the rewound cursor up to the first IEND record, and
its length is the fragment's length plus the sum of those records' lengths. -/
theorem residual_is_fragment_and_payloads (inp : List Nat) (fuel c : Nat)
    (fragment idat : List Nat) (h : aggregate inp fuel c fragment = .ok (some idat)) :
    ∃ chs : List Chunk, Walked inp c chs
      ∧ idat = fragment ++ (chs.map (payload inp)).flatten
      ∧ idat.length = fragment.length + (chs.map (fun ch => ch.chunk_length)).sum := by
  obtain ⟨chs, hw, -, he, hl⟩ := aggregate_result inp fuel c fragment idat h
  exact ⟨chs, hw, he, hl⟩

theorem residual_is_fragment_and_payloads_witness :
    aggregate input_leak (input_leak.length + 1) 36 [] = .ok (some [0x0c, 0x58, 1, 2, 3])
      ∧ ∃ chs : List Chunk, Walked input_leak 36 chs
        ∧ [0x0c, 0x58, 1, 2, 3] = [] ++ (chs.map (payload input_leak)).flatten
        ∧ ([0x0c, 0x58, 1, 2, 3] : List Nat).length
            = ([] : List Nat).length + (chs.map (fun ch => ch.chunk_length)).sum :=
  ⟨rfl, residual_is_fragment_and_payloads input_leak (input_leak.length + 1) 36 []
    [0x0c, 0x58, 1, 2, 3] rfl⟩

theorem walked_bound (inp : List Nat) (c : Nat) (chs : List Chunk) (hw : Walked inp c chs) :
    c + 8 ≤ inp.length := by
  cases hw with
  | stop _ ch hp _ _ => exact (parse_chunk_ok _ _ _ hp).1
  | step _ ch _ hp _ _ => exact (parse_chunk_ok _ _ _ hp).1

theorem aggregate_walked (inp : List Nat) (hlen : inp.length + 4 < U32) (c : Nat)
    (chs : List Chunk) (hw : Walked inp c chs) :
    (∀ ch ∈ chs, ch.chunk_data + ch.chunk_length ≤ inp.length) →
    ∀ (fuel : Nat) (idat : List Nat), inp.length < fuel + c → idat.length + 16 ≤ c →
      aggregate inp fuel c idat = .ok (some (idat ++ (chs.map (payload inp)).flatten))
        ∧ ∀ k, idat.length + ((chs.take k).map (fun ch => ch.chunk_length)).sum
            ≤ inp.length := by
  induction hw with
  | stop c ch hp h1 h2 =>
    intro _ fuel idat hf hi
    obtain ⟨hb, -, -⟩ := parse_chunk_ok _ _ _ hp
    obtain ⟨fuel, rfl⟩ : ∃ k, fuel = k + 1 := ⟨fuel - 1, by omega⟩
    refine ⟨?_, fun k => ?_⟩
    · unfold aggregate
      rw [hp, ok_bind, if_neg h1, if_pos h2]
      simp
    · simp only [List.take_nil, List.map_nil, List.sum_nil]
      omega
  | step c ch chs hp h1 _ ih =>
    intro hin fuel idat hf hi
    obtain ⟨hb, hn, hd⟩ := parse_chunk_ok _ _ _ hp
    obtain ⟨fuel, rfl⟩ : ∃ k, fuel = k + 1 := ⟨fuel - 1, by omega⟩
    have hci := hin ch (List.mem_cons_self _ _)
    have hnw : ch.next = c + 12 + ch.chunk_length :=
      next_in_bounds inp c ch hlen hp hci
    have hs : slice inp ch.chunk_data ch.chunk_length = .ok (payload inp ch) := by
      unfold slice
      rw [if_pos hci]
      rfl
    have hpl : (payload inp ch).length = ch.chunk_length := by
      simp only [payload, List.length_take, List.length_drop]
      omega
    obtain ⟨ha, hk⟩ := ih (fun x hx => hin x (List.mem_cons_of_mem _ hx)) fuel
      (idat ++ payload inp ch) (by omega)
      (by rw [List.length_append, hpl]; omega)
    refine ⟨?_, fun k => ?_⟩
    · unfold aggregate
      rw [hp, ok_bind, if_pos h1, hs, ok_bind, if_pos (by omega), ha]
      simp only [List.map_cons, List.flatten_cons, List.append_assoc]
    · cases k with
      | zero =>
        simp only [List.take_zero, List.map_nil, List.sum_nil]
        omega
      | succ k =>
        have := hk k
        rw [List.length_append, hpl] at this
        simp only [List.take_succ_cons, List.map_cons, List.sum_cons]
        omega

/-- C19: when the tag is found at least 20 bytes after `end` (the rewound cursor
`t` has `e + 16 ≤ t`) and every IDAT record walked by the aggregator lies
inside the input, the leading fragment and every payload copy are defined,
the aggregation succeeds, and the residual length after any number `k` of
records never exceeds `in_length`. -/
theorem residual_within_input (inp : List Nat) (e t : Nat) (chs : List Chunk)
    (hlen : inp.length + 4 < U32) (hgap : e + 16 ≤ t) (hw : Walked inp t chs)
    (hin : ∀ ch ∈ chs, ch.chunk_data + ch.chunk_length ≤ inp.length) :
    ∃ fragment, leading_fragment inp e (t : Int) = .ok fragment
      ∧ aggregate inp (inp.length + 1) t fragment
          = .ok (some (fragment ++ (chs.map (payload inp)).flatten))
      ∧ ∀ k, fragment.length + ((chs.take k).map (fun ch => ch.chunk_length)).sum
          ≤ inp.length := by
  have hb := walked_bound inp t chs hw
  obtain ⟨hf, hl⟩ := leading_fragment_eq inp e t (by omega) hgap (by omega)
  obtain ⟨ha, hk⟩ := aggregate_walked inp hlen t chs hw hin (inp.length + 1) _ (by omega)
    (by rw [hl]; omega)
  exact ⟨_, hf, ha, hk⟩

theorem residual_within_input_witness :
    input_leak.length + 4 < U32 ∧ 20 + 16 ≤ 36
      ∧ Walked input_leak 36 [⟨53, 5, CHUNK_TYPE_IDAT, 44⟩]
      ∧ (∀ ch ∈ [(⟨53, 5, CHUNK_TYPE_IDAT, 44⟩ : Chunk)],
          ch.chunk_data + ch.chunk_length ≤ input_leak.length)
      ∧ ∃ fragment, leading_fragment input_leak 20 ((36 : Nat) : Int) = .ok fragment
        ∧ aggregate input_leak (input_leak.length + 1) 36 fragment
            = .ok (some (fragment
                ++ ([(⟨53, 5, CHUNK_TYPE_IDAT, 44⟩ : Chunk)].map (payload input_leak)).flatten))
        ∧ ∀ k, fragment.length
            + (([(⟨53, 5, CHUNK_TYPE_IDAT, 44⟩ : Chunk)].take k).map
                (fun ch => ch.chunk_length)).sum ≤ input_leak.length :=
  have hw : Walked input_leak 36 [⟨53, 5, CHUNK_TYPE_IDAT, 44⟩] :=
    .step 36 ⟨53, 5, CHUNK_TYPE_IDAT, 44⟩ [] rfl rfl
      (.stop 53 ⟨65, 0, CHUNK_TYPE_IEND, 61⟩ rfl (by decide) rfl)
  have hin : ∀ ch ∈ [(⟨53, 5, CHUNK_TYPE_IDAT, 44⟩ : Chunk)],
      ch.chunk_data + ch.chunk_length ≤ input_leak.length := by
    intro ch hch
    rw [List.mem_singleton] at hch
    subst hch
    decide
  ⟨by decide, by decide, hw, hin,
    residual_within_input input_leak 20 36 [⟨53, 5, CHUNK_TYPE_IDAT, 44⟩] (by decide)
      (by decide) hw hin⟩

/-! ## Progress of the chunk walk -/

theorem or8_fin : ∀ b0 b1 b2 b3 b4 b5 b6 b7 : Fin 2,
    ((((((((0 ||| (b0 : Nat) <<< 0) ||| (b1 : Nat) <<< 1) ||| (b2 : Nat) <<< 2)
      ||| (b3 : Nat) <<< 3) ||| (b4 : Nat) <<< 4) ||| (b5 : Nat) <<< 5) ||| (b6 : Nat) <<< 6)
      ||| (b7 : Nat) <<< 7)
      = (b0 : Nat) + 2 * b1 + 4 * b2 + 8 * b3 + 16 * b4 + 32 * b5 + 64 * b6 + 128 * b7 := by
  decide!

theorem or8 (f : Nat → Nat) (hf : ∀ k, f k < 2) :
    (List.range 8).foldl (fun acc k => acc ||| (f k <<< k)) 0
      = f 0 + 2 * f 1 + 4 * f 2 + 8 * f 3 + 16 * f 4 + 32 * f 5 + 64 * f 6 + 128 * f 7 := by
  have hr : List.range 8 = [0, 1, 2, 3, 4, 5, 6, 7] := by decide
  rw [hr]
  simp only [List.foldl]
  exact or8_fin ⟨f 0, hf 0⟩ ⟨f 1, hf 1⟩ ⟨f 2, hf 2⟩ ⟨f 3, hf 3⟩ ⟨f 4, hf 4⟩ ⟨f 5, hf 5⟩
    ⟨f 6, hf 6⟩ ⟨f 7, hf 7⟩

theorem bit_of_sum (f : Nat → Nat) (hf : ∀ k, f k < 2) (k : Nat) (hk : k < 8) :
    (f 0 + 2 * f 1 + 4 * f 2 + 8 * f 3 + 16 * f 4 + 32 * f 5 + 64 * f 6 + 128 * f 7) / 2 ^ k % 2
      = f k := by
  have h0 := hf 0
  have h1 := hf 1
  have h2 := hf 2
  have h3 := hf 3
  have h4 := hf 4
  have h5 := hf 5
  have h6 := hf 6
  have h7 := hf 7
  interval_cases k <;> simp only [Nat.reducePow] <;> omega

theorem shift_and_one (x j : Nat) : (x >>> j) &&& 1 = x / 2 ^ j % 2 := by
  rw [Nat.shiftRight_eq_div_pow, Nat.and_one_is_mod]

theorem bitstream_getD (B : List Nat) (hB : B.length * 8 + 7 < U32) (p : Nat) :
    (bitstream B).getD p 0 = if p < B.length * 8 then stream_bit B p else 0 := by
  have hn : B.length * 8 % U32 = B.length * 8 := Nat.mod_eq_of_lt (by omega)
  have hn7 : (B.length * 8 + 7) % U32 = B.length * 8 + 7 := Nat.mod_eq_of_lt hB
  unfold bitstream
  simp only [hn, hn7, List.getD_eq_getElem?_getD, List.getElem?_map]
  by_cases hp : p < B.length * 8 + 7
  · rw [List.getElem?_range hp]
    simp only [Option.map_some', Option.getD_some, shift_and_one, stream_bit,
      List.getD_eq_getElem?_getD]
  · rw [List.getElem?_eq_none (by simpa using hp)]
    simp only [Option.map_none', Option.getD_none]
    rw [if_neg (by omega)]

theorem bitstream_lt_two (B : List Nat) (hB : B.length * 8 + 7 < U32) (p : Nat) :
    (bitstream B).getD p 0 < 2 := by
  rw [bitstream_getD B hB p]
  split
  · exact Nat.mod_lt _ (by decide)
  · decide

theorem shifted_getD (B : List Nat) (hB : B.length * 8 + 7 < U32) (r m : Nat) (hr : r < 8)
    (hm : m < B.length) :
    (shifted B r).getD m 0
      = (bitstream B).getD (8 * m + r + 0) 0 + 2 * (bitstream B).getD (8 * m + r + 1) 0
        + 4 * (bitstream B).getD (8 * m + r + 2) 0 + 8 * (bitstream B).getD (8 * m + r + 3) 0
        + 16 * (bitstream B).getD (8 * m + r + 4) 0 + 32 * (bitstream B).getD (8 * m + r + 5) 0
        + 64 * (bitstream B).getD (8 * m + r + 6) 0
        + 128 * (bitstream B).getD (8 * m + r + 7) 0 := by
  have hn : B.length * 8 % U32 = B.length * 8 := Nat.mod_eq_of_lt (by omega)
  unfold shifted
  simp only [hn, List.getD_eq_getElem?_getD, List.getElem?_map, List.getElem?_range hm,
    Option.map_some', Option.getD_some]
  rw [if_pos (by omega)]
  have := or8 (fun k => (bitstream B).getD (8 * m + r + k) 0)
    (fun k => bitstream_lt_two B hB _)
  simp only [List.getD_eq_getElem?_getD] at this
  exact this

theorem shifted_length (B : List Nat) (r : Nat) : (shifted B r).length = B.length := by
  unfold shifted
  simp only [List.length_map, List.length_range]

theorem stream_bit_at (B : List Nat) (m k : Nat) (hk : k < 8) :
    stream_bit B (8 * m + 0 + k) = B.getD m 0 / 2 ^ k % 2 := by
  unfold stream_bit
  rw [show (8 * m + 0 + k) / 8 = m by omega, show (8 * m + 0 + k) % 8 = k by omega]

theorem byte_of_bits (x : Nat) (hx : x < 256) :
    x / 2 ^ 0 % 2 + 2 * (x / 2 ^ 1 % 2) + 4 * (x / 2 ^ 2 % 2) + 8 * (x / 2 ^ 3 % 2)
      + 16 * (x / 2 ^ 4 % 2) + 32 * (x / 2 ^ 5 % 2) + 64 * (x / 2 ^ 6 % 2)
      + 128 * (x / 2 ^ 7 % 2) = x := by
  simp only [Nat.reducePow]
  omega

theorem shifted_zero (B : List Nat) (hB : B.length * 8 + 7 < U32) (hb : ∀ b ∈ B, b < 256) :
    shifted B 0 = B := by
  apply List.ext_getElem (shifted_length B 0)
  intro m h1 h2
  have hg := shifted_getD B hB 0 m (by decide) h2
  rw [List.getD_eq_getElem _ _ h1] at hg
  rw [hg]
  simp only [bitstream_getD B hB]
  rw [if_pos (by omega), if_pos (by omega), if_pos (by omega), if_pos (by omega),
    if_pos (by omega), if_pos (by omega), if_pos (by omega), if_pos (by omega)]
  rw [stream_bit_at B m 0 (by decide), stream_bit_at B m 1 (by decide),
    stream_bit_at B m 2 (by decide), stream_bit_at B m 3 (by decide),
    stream_bit_at B m 4 (by decide), stream_bit_at B m 5 (by decide),
    stream_bit_at B m 6 (by decide), stream_bit_at B m 7 (by decide),
    byte_of_bits _ (by rw [List.getD_eq_getElem _ _ h2]; exact hb _ (List.getElem_mem _))]
  exact List.getD_eq_getElem _ _ h2

/-- C12: for a residual buffer `B` of `n` bytes (the eight `n`-byte views and
the bit array fitting a 32-bit address space: `8 * n + 7 < 2 ^ 32`), every
rotation `r < 8`, byte index `m < n` and bit `k < 8`: bit `k` of byte `m` of
rotated view `r` is bit `8 * m + r + k` of `B` read least significant bit
first when `8 * m + r + k < 8 * n`, and 0 otherwise; and view 0 is `B`. -/
theorem rotated_view_bits (B : List Nat) (r m k : Nat) (hB : B.length * 8 + 7 < U32)
    (hr : r < 8) (hm : m < B.length) (hk : k < 8) :
    ((shifted B r).getD m 0 / 2 ^ k % 2
        = if 8 * m + r + k < 8 * B.length then stream_bit B (8 * m + r + k) else 0)
      ∧ ((∀ b ∈ B, b < 256) → shifted B 0 = B) := by
  refine ⟨?_, shifted_zero B hB⟩
  rw [shifted_getD B hB r m hr hm]
  have := bit_of_sum (fun k => (bitstream B).getD (8 * m + r + k) 0)
    (fun k => bitstream_lt_two B hB _) k hk
  simp only [] at this
  rw [this, bitstream_getD B hB]
  by_cases h : 8 * m + r + k < 8 * B.length
  · rw [if_pos h, if_pos (by omega)]
  · rw [if_neg h, if_neg (by omega)]

theorem rotated_view_bits_witness :
    ([0xa5, 0x3c] : List Nat).length * 8 + 7 < U32 ∧ 3 < 8 ∧ 1 < ([0xa5, 0x3c] : List Nat).length
      ∧ 5 < 8
      ∧ ((shifted [0xa5, 0x3c] 3).getD 1 0 / 2 ^ 5 % 2
          = if 8 * 1 + 3 + 5 < 8 * ([0xa5, 0x3c] : List Nat).length
            then stream_bit [0xa5, 0x3c] (8 * 1 + 3 + 5) else 0)
      ∧ ((∀ b ∈ ([0xa5, 0x3c] : List Nat), b < 256) → shifted [0xa5, 0x3c] 0 = [0xa5, 0x3c]) :=
  ⟨by decide, by decide, by decide, by decide,
    rotated_view_bits [0xa5, 0x3c] 3 1 5 (by decide) (by decide) (by decide) (by decide)⟩

/-! ## The order of the trials -/

/-- C15: whatever the decompressor, the stream every trial copies offers the
output capacity priming left, `image_length` less the bytes priming produced,
because `zz.next_out` is reset and `zz.avail_out` is not.  With width 1 and
height 1 the image length is 4 and the residual stream `0c 58 01 02 03`
decompresses to 4 bytes when offered 4 bytes of output; but priming has used
up the 4 bytes, the copied stream offers `avail_out = 0`, the trial ends with
`Z_BUF_ERROR`, and the run returns -4. -/
theorem capacity_is_what_priming_left :
    (∀ (σ : Type) (Z : Zlib σ) (width height : Nat),
        (primed Z width height).avail_out
          = image_length width height
            - (Z.inflate Z.init lookback lookback.length (image_length width height)).2.2.length)
      ∧ image_length 1 1 = 4
      ∧ (trial toyZlib { state := true, avail_out := image_length 1 1, total_out := 4 }
          [0x0c, 0x58, 1, 2, 3] 0).2 = (Z_STREAM_END, [0x58, 1, 2, 3])
      ∧ (primed toyZlib 1 1).avail_out = 0
      ∧ (trial toyZlib (primed toyZlib 1 1) [0x0c, 0x58, 1, 2, 3] 0).2 = (-5, [])
      ∧ acropalypse_recover toyZlib (junk 0 0) input_leak (List.replicate 70 0) 1 1
          = .ok (-4, List.replicate 70 0) := by
  refine ⟨fun _ _ _ _ => rfl, ?_, ?_, ?_, ?_, ?_⟩ <;> decide!

/-- C20: the residual buffer has 9 bytes and its only candidate is `i = 8`; the
trial there is pointed at byte 1 of view 0, where 8 bytes of the view remain,
with `avail_in = 9`: `i / 8 + avail_in = 10` exceeds `idat_length = 9`. -/
theorem window_exceeds_view :
    aggregate input_offset (input_offset.length + 1) 36 [] = .ok (some idat_offset)
      ∧ candidate idat_offset 8
      ∧ decompress probeZlib (junk 0 0) 1 1 idat_offset
          = .ok { status := -3, total_out := 2, decompressed := [8, 9, 0, 0] }
      ∧ ¬ (8 / 8 + idat_offset.length ≤ idat_offset.length) := by
  refine ⟨?_, ?_, ?_, ?_⟩ <;> decide!

/-! ## Images shorter than the window -/

end Acropalypse
